import Mathlib

/-!
Shallow embedding of the `enact` action-binding engine
(`src/enact/src/lib.rs`, `src/enact/src/graph.rs`).

Modelling conventions:
* Rust payload types are represented by the closed universe `RTy`
  (`bool`, `()`, `mint::Vector2<f64>`), which covers every payload type
  appearing in the crate and its adapters.  `Val` is the corresponding
  universe of runtime values.  `mint::Vector2<f64>` components are
  modelled as `Int`: the only vector values the engine itself computes
  (`DPad::apply`) are differences of `0`/`1` casts, on which IEEE f64
  arithmetic is exact, so `Int` is a faithful model.
* `TypeId::of::<I>` for an input type `I` and `I::NAME` are both
  represented by the input kind's name string; the trait methods of
  `Input` are supplied by a `KindEnv` environment mapping kind names to
  their method table (`InputKindSpec`).
* Hash maps (`FxHashMap`, `TypeIdMap`, `BiHashMap`) are modelled as
  association lists; only lookup/insert behaviour is relied upon.
* Rust panics (`unwrap`, `expect`, out-of-bounds indexing) are modelled
  by `Option` results (`none` = panic) or by the `RunRes.panic`
  constructor; `&mut` updates are modelled by returning the new state,
  and fallible `&mut` methods return the (possibly unchanged) state
  together with an optional error.
* The unbounded `while` loop of `Bindings::propagate` is modelled with
  explicit fuel; `RunRes.fuelOut` marks fuel exhaustion, so termination
  of the Rust loop is the statement that some fuel suffices.
* `u32` action ids are modelled as `Nat`; the `expect("too many
  actions")` overflow panic at `2^32` live actions is unreachable below
  that bound and not modelled.
-/

namespace Enact

/-- Payload type tags: the `TypeId`s used by the crate. -/
inductive RTy where
  | bool
  | unit
  | vec2
deriving DecidableEq

/-- Models `std::any::type_name` for the types in `RTy`. -/
def RTy.tyName : RTy → String
  | .bool => "bool"
  | .unit => "()"
  | .vec2 => "mint::Vector2<f64>"

/-- Runtime payload values (type-erased `dyn Any` contents). -/
inductive Val where
  | bool (b : Bool)
  | unit
  | vec2 (x y : Int)
deriving DecidableEq

/-- The `TypeId` of a value. -/
def Val.ty : Val → RTy
  | .bool _ => .bool
  | .unit => .unit
  | .vec2 _ _ => .vec2

/-- Corresponds to `struct TypeError { expected: &'static str, actual: &'static str }`. -/
structure TypeError where
  expected : String
  actual : String
deriving DecidableEq

/-- Corresponds to `struct DuplicateAction { name: String }`. -/
structure DuplicateAction where
  name : String
deriving DecidableEq

/-- An input value: `kind` stands for its Rust type `I : Input`
(identified by `I::NAME`, which also stands in for `TypeId::of::<I>`),
`key` for the concrete value of that type. -/
structure Inp where
  kind : String
  key : String
deriving DecidableEq

/-- Method table of one `Input` implementation: `visit_type` (as the
payload type of each value), `from_str` (returning the keys of the
candidate inputs), and `to_string`. -/
structure InputKindSpec where
  visitTy : String → RTy
  fromStr : String → List String
  toStr : String → String

/-- Environment giving each input kind name its method table (the
trait dictionary for `I : Input`). -/
def KindEnv : Type := String → InputKindSpec

/-- Result of `input.visit_type::<GetTypeId>()`. -/
def visitTy (E : KindEnv) (i : Inp) : RTy :=
  (E i.kind).visitTy i.key

/-- Corresponds to `struct ActionDefinition { id, name, ty, ty_name }`
(`ty_name` is derived from `ty`). -/
structure ActionDefinition where
  id : Nat
  name : String
  ty : RTy
deriving DecidableEq

/-- Corresponds to `pub struct Session { actions: BiHashMap<ActionDefinition> }`;
the list is kept in insertion order. -/
structure Session where
  actions : List ActionDefinition
deriving DecidableEq

/-- Typed action handle `Action<T>`: the phantom type parameter `T` is
carried as the explicit field `ty`. -/
structure Action where
  id : Nat
  ty : RTy
deriving DecidableEq

namespace Session

/-- Corresponds to `Session::new`. -/
def new : Session := ⟨[]⟩

/-- Corresponds to `BiHashMap::get1` (lookup by id). -/
def get1 (s : Session) (id : Nat) : Option ActionDefinition :=
  s.actions.find? (fun d => d.id = id)

/-- Corresponds to `BiHashMap::get2` (lookup by name). -/
def get2 (s : Session) (name : String) : Option ActionDefinition :=
  s.actions.find? (fun d => d.name = name)

/-- Corresponds to `Session::create_action::<T>(name)`.  Mirrors
`insert_unique`: the insert fails iff either key (id or name) collides;
the session is returned unchanged on failure (second component). -/
def create_action (s : Session) (name : String) (ty : RTy) :
    Except DuplicateAction Action × Session :=
  let id := s.actions.length
  if s.actions.any (fun d => d.id = id || d.name = name) then
    (.error ⟨name⟩, s)
  else
    (.ok ⟨id, ty⟩, ⟨s.actions ++ [⟨id, name, ty⟩]⟩)

/-- Corresponds to `Session::action::<T>(id)`; `none` models the
`expect("no such action")` panic. -/
def action (s : Session) (id : Nat) (ty : RTy) :
    Option (Except TypeError Action) :=
  (s.get1 id).map fun act =>
    if act.ty ≠ ty then
      .error ⟨ty.tyName, act.ty.tyName⟩
    else
      .ok ⟨id, ty⟩

/-- Corresponds to `Session::action_id(name)`. -/
def action_id (s : Session) (name : String) : Option Nat :=
  (s.get2 name).map (·.id)

/-- Corresponds to `Session::action_name(id)`; `none` models the
`unwrap` panic. -/
def action_name (s : Session) (id : Nat) : Option String :=
  (s.get1 id).map (·.name)

/-- Corresponds to `Session::check_type(id, &input)`; `none` models the
`expect("no such action")` panic. -/
def check_type (E : KindEnv) (s : Session) (id : Nat) (i : Inp) :
    Option (Except TypeError Unit) :=
  (s.get1 id).map fun act =>
    if act.ty = visitTy E i then
      .ok ()
    else
      .error ⟨(visitTy E i).tyName, act.ty.tyName⟩

end Session

/-- Corresponds to `struct ActionState<T> { queue: VecDeque<T>, latest: T }`;
the erased element type `T` is carried as the explicit field `ty`. -/
structure ActionState where
  ty : RTy
  queue : List Val
  latest : Val
deriving DecidableEq

/-- Corresponds to `pub struct Seat { state: Vec<Option<Box<RwLock<dyn AnyState>>>> }`.
The locks only serialize access and carry no state of their own. -/
structure Seat where
  state : List (Option ActionState)
deriving DecidableEq

namespace Seat

/-- Corresponds to `Seat::new`. -/
def new : Seat := ⟨[]⟩

/-- Corresponds to `Seat::push(action, value)`.  Returns the seat after
the call together with the error, if any; on a type mismatch nothing
has been mutated, which the definition makes explicit by rebuilding the
(unchanged) resized vector. -/
def push (s : Seat) (a : Nat) (v : Val) : Seat × Option TypeError :=
  let st := if s.state.length ≤ a then
      s.state ++ List.replicate (a + 1 - s.state.length) none
    else s.state
  match st[a]? with
  | some (some c) =>
    if c.ty = v.ty then
      (⟨st.set a (some ⟨c.ty, c.queue ++ [v], v⟩)⟩, none)
    else
      (⟨st⟩, some ⟨c.ty.tyName, v.ty.tyName⟩)
  | _ =>
    (⟨st.set a (some ⟨v.ty, [v], v⟩)⟩, none)

/-- Corresponds to `Seat::poll(action)`: pops the oldest queued value.
`none` models the `expect("type mismatch")` downcast panic; otherwise
the popped value (if any) and the seat afterwards are returned. -/
def poll (s : Seat) (a : Action) : Option (Option Val × Seat) :=
  match s.state[a.id]? with
  | none => some (none, s)
  | some none => some (none, s)
  | some (some c) =>
    if c.ty = a.ty then
      match c.queue with
      | [] => some (none, s)
      | v :: rest => some (some v, ⟨s.state.set a.id (some ⟨c.ty, rest, c.latest⟩)⟩)
    else none

/-- Corresponds to `Seat::get(action)`: clones the latest value.
`none` models the `expect("type mismatch")` downcast panic. -/
def get (s : Seat) (a : Action) : Option (Option Val) :=
  match s.state[a.id]? with
  | none => some none
  | some none => some none
  | some (some c) =>
    if c.ty = a.ty then some (some c.latest) else none

/-- Corresponds to `Seat::flush`: `ActionState::flush` clears each
queue and leaves `latest` alone. -/
def flush (s : Seat) : Seat :=
  ⟨s.state.map (Option.map fun c => ⟨c.ty, [], c.latest⟩)⟩

end Seat

/-- Association-list lookup, modelling `HashMap::get`. -/
def alistGet {κ β : Type} [DecidableEq κ] (k : κ) (l : List (κ × β)) : Option β :=
  (l.find? (fun p => p.1 = k)).map (·.2)

/-- Association-list insert-or-replace, modelling `HashMap::insert` /
`Entry::or_insert`. -/
def alistSet {κ β : Type} [DecidableEq κ] (k : κ) (v : β) : List (κ × β) → List (κ × β)
  | [] => [(k, v)]
  | (k', v') :: rest =>
    if k' = k then (k, v) :: rest else (k', v') :: alistSet k v rest

/-- Serialized form of a single filter, `struct FilterConfig`. -/
structure FilterConfig where
  ty : String
  targets : List String
deriving DecidableEq

/-- Serialized bindings of one input source, `struct SourceConfig`
(`bindings` uses `tuple_vec_map`, hence an ordered list). -/
structure SourceConfig where
  ty : String
  bindings : List (String × List String)
deriving DecidableEq

/-- Serialized form of `Bindings`, `struct Config`. -/
structure Config where
  sources : List SourceConfig
  filters : List FilterConfig
deriving DecidableEq

/-- A loaded filter as seen through the `AnyFilter` object interface of
`lib.rs` (`save`/`apply`/`source_actions`/`target_actions`). -/
structure Filter where
  sources : List Nat
  targets : List Nat
  apply : Seat → Option Seat
  save : Session → Option FilterConfig

/-- Corresponds to `InputBindings<I>`: `bindings: FxHashMap<I, Vec<ActionId>>`. -/
abbrev InputBindings : Type := List (Inp × List Nat)

/-- Corresponds to `bindings.entry(input).or_default().push(action)`. -/
def entryPush (i : Inp) (a : Nat) : InputBindings → InputBindings
  | [] => [(i, [a])]
  | (j, as) :: rest =>
    if j = i then (j, as ++ [a]) :: rest else (j, as) :: entryPush i a rest

/-- Corresponds to `pub struct Bindings`: the per-input-type routing
sub-tables (`TypeIdMap`, keyed here by the input kind name standing for
`TypeId::of::<I>`), the filter list, and the reverse index
`filter_source_actions` mapping a source action to the index of the
filter consuming it. -/
structure Bindings where
  actions : List (String × InputBindings)
  filters : List Filter
  filter_source_actions : List (Nat × Nat)

/-- Outcome of a fuelled computation: `fuelOut` marks exhaustion of the
fuel modelling the unbounded Rust loop, `panic` a Rust panic. -/
inductive RunRes (α : Type) where
  | fuelOut
  | panic
  | ok (val : α)
deriving DecidableEq

namespace Bindings

/-- Corresponds to `Bindings::new`. -/
def new : Bindings := ⟨[], [], []⟩

/-- Corresponds to `Bindings::add_any_filter`.  `HashMap::extend`
replaces existing keys; with first-match lookup this is modelled by
prepending the new entries (later sources processed last end up first). -/
def add_any_filter (b : Bindings) (f : Filter) : Bindings :=
  { b with
    filter_source_actions :=
      f.sources.foldl (fun acc a => (a, b.filters.length) :: acc) b.filter_source_actions
    filters := b.filters ++ [f] }

/-- Corresponds to `Bindings::add_filter`. -/
def add_filter (b : Bindings) (f : Filter) : Bindings :=
  b.add_any_filter f

/-- Corresponds to `Bindings::bind(input, action, session)`.  Returns
the bindings after the call plus the error, if any; `none` models the
panic inside `Session::check_type` when `action` is undefined. -/
def bind (E : KindEnv) (b : Bindings) (i : Inp) (action : Nat) (sess : Session) :
    Option (Bindings × Option TypeError) :=
  match Session.check_type E sess action i with
  | none => none
  | some (.error e) => some (b, some e)
  | some (.ok ()) =>
    let tbl := (alistGet i.kind b.actions).getD []
    some ({ b with actions := alistSet i.kind (entryPush i action tbl) b.actions }, none)

/-- Corresponds to `Bindings::propagate`'s work-list loop.  The Rust
`Vec` is popped from its end; the list here keeps the top of that stack
at its head, so `dirty.extend(filter.target_actions())` prepends the
reversed target list.  The first argument is fuel bounding the number
of iterations (the Rust loop is unbounded); `filters[idx]` indexing out
of range and a panic inside `apply` yield `.panic`. -/
def propagate (b : Bindings) : Nat → List Nat → Seat → RunRes Seat
  | _, [], s => .ok s
  | 0, _ :: _, _ => .fuelOut
  | fuel + 1, a :: rest, s =>
    match alistGet a b.filter_source_actions with
    | none => b.propagate fuel rest s
    | some idx =>
      match b.filters[idx]? with
      | none => .panic
      | some f =>
        match f.apply s with
        | none => .panic
        | some s' => b.propagate fuel (f.targets.reverse ++ rest) s'

/-- The `for &action in bindings` loop of `Bindings::handle`: push the
payload (`unwrap` panics on a push error) then propagate. -/
def handleActions (b : Bindings) (fuel : Nat) (v : Val) :
    List Nat → Seat → RunRes Seat
  | [], s => .ok s
  | a :: rest, s =>
    match Seat.push s a v with
    | (_, some _) => .panic
    | (s', none) =>
      match b.propagate fuel [a] s' with
      | .fuelOut => .fuelOut
      | .panic => .panic
      | .ok s'' => b.handleActions fuel v rest s''

/-- Corresponds to `Bindings::handle(input, data, seat)`.  Returns the
seat after the call plus the returned error, if any. -/
def handle (E : KindEnv) (b : Bindings) (fuel : Nat) (i : Inp) (v : Val)
    (s : Seat) : RunRes (Seat × Option TypeError) :=
  if v.ty ≠ visitTy E i then
    .ok (s, some ⟨(visitTy E i).tyName, v.ty.tyName⟩)
  else
    match alistGet i.kind b.actions with
    | none => .ok (s, none)
    | some tbl =>
      match alistGet i tbl with
      | none => .ok (s, none)
      | some acts =>
        match b.handleActions fuel v acts s with
        | .fuelOut => .fuelOut
        | .panic => .panic
        | .ok s' => .ok (s', none)

/-- The action list the routing table associates with one input value. -/
def boundActions (b : Bindings) (i : Inp) : List Nat :=
  match alistGet i.kind b.actions with
  | none => []
  | some tbl => (alistGet i tbl).getD []

end Bindings

/-- Corresponds to `enum FilterLoadError` in `graph.rs`. -/
inductive FilterLoadError where
  | UnknownFilter (ty : String)
  | WrongOutputCount (expected : Nat)
  | UnknownTarget (output : String)
  | DuplicateSource (name : String)
  | TypeError (e : TypeError)
deriving DecidableEq

/-- Corresponds to `enum LoadError` in `lib.rs`. -/
inductive LoadError where
  | UnknownSource (name : String)
  | UnknownAction (name : String)
  | UnknownInput (input : String)
  | InputTypeError (action_name : String) (input : String) (actual : String)
      (expected : List String)
  | Filter (e : FilterLoadError)
deriving DecidableEq

/-- Corresponds to `const DPAD_DIRS`. -/
def DPAD_DIRS : List String := ["up", "left", "down", "right"]

/-- Corresponds to `struct DPad` (the `Action<mint::Vector2<f64>>` /
`Action<bool>` type parameters live in the `ty` fields). -/
structure DPad where
  target : Action
  up : Action
  left : Action
  down : Action
  right : Action
deriving DecidableEq

namespace DPad

/-- Corresponds to `DPad::NAME`. -/
def NAME : String := "dpad"

/-- The `for dir in DPAD_DIRS` loop of `DPad::create_source_actions`:
`?` aborts at the first failing `create_action`, keeping the session
mutations made so far (`From<DuplicateAction>` yields `DuplicateSource`). -/
def createDirs (o : String) : Session → List String → Session × Option FilterLoadError
  | s, [] => (s, none)
  | s, dir :: rest =>
    match Session.create_action s (o ++ "." ++ dir) .bool with
    | (.error e, s') => (s', some (.DuplicateSource e.name))
    | (.ok _, s') => createDirs o s' rest

/-- Corresponds to `DPad::create_source_actions`. -/
def create_source_actions (sess : Session) (cfg : FilterConfig) :
    Session × Option FilterLoadError :=
  match cfg.targets with
  | [o] => createDirs o sess DPAD_DIRS
  | _ => (sess, some (.WrongOutputCount 1))

/-- One element of the `DPAD_DIRS.map(...)` array in `DPad::load`:
`session.action::<bool>(session.action_id(&format!(...)).unwrap())`;
`none` models the `unwrap` panic. -/
def dirAction (sess : Session) (o dir : String) : Option (Except TypeError Action) :=
  match Session.action_id sess (o ++ "." ++ dir) with
  | none => none
  | some id => Session.action sess id .bool

/-- Corresponds to `DPad::load`.  `cfg.targets[0]` panics (`none`) when
the target list is empty; the struct literal then resolves `target`
(with its `?`s) before `up?`/`left?`/`down?`/`right?`. -/
def load (sess : Session) (cfg : FilterConfig) : Option (Except FilterLoadError DPad) :=
  match cfg.targets[0]? with
  | none => none
  | some o => do
    let up ← dirAction sess o "up"
    let left ← dirAction sess o "left"
    let down ← dirAction sess o "down"
    let right ← dirAction sess o "right"
    match Session.action_id sess o with
    | none => pure (.error (.UnknownTarget o))
    | some tid => do
      let t ← Session.action sess tid .vec2
      pure (do
        let target ← t.mapError FilterLoadError.TypeError
        let u ← up.mapError FilterLoadError.TypeError
        let l ← left.mapError FilterLoadError.TypeError
        let d ← down.mapError FilterLoadError.TypeError
        let r ← right.mapError FilterLoadError.TypeError
        pure (DPad.mk target u l d r))

/-- Corresponds to `DPad::save`; `none` models the `action_name` panic. -/
def save (dp : DPad) (sess : Session) : Option FilterConfig :=
  (Session.action_name sess dp.target.id).map fun n => ⟨NAME, [n]⟩

end DPad

/-- Corresponds to `bool as u64 as f64` (exact on `0`/`1`). -/
def b2i (b : Bool) : Int := if b then 1 else 0

/-- Corresponds to `seat.get(action).unwrap_or_default()` for an
`Action<bool>`: an absent cell reads as `false`; `none` models the
`get` downcast panic.  (The non-`bool` value case is unrepresentable in
Rust, where a cell of type `bool` can only hold `bool`s.) -/
def Seat.getBool (s : Seat) (a : Action) : Option Bool :=
  match Seat.get s a with
  | none => none
  | some none => some false
  | some (some (.bool b)) => some b
  | some (some _) => none

/-- Corresponds to `DPad::apply`: `x = right - left`, `y = up - down`,
pushed to the target (`unwrap` panics on a push error). -/
def DPad.apply (dp : DPad) (s : Seat) : Option Seat := do
  let r ← Seat.getBool s dp.right
  let l ← Seat.getBool s dp.left
  let u ← Seat.getBool s dp.up
  let d ← Seat.getBool s dp.down
  match Seat.push s dp.target.id (.vec2 (b2i r - b2i l) (b2i u - b2i d)) with
  | (_, some _) => none
  | (s', none) => some s'

/-- Modelled from the spec: the `source_actions`/`target_actions`
methods that `lib.rs`'s `AnyFilter` impl forwards to `Filter` are not
defined for `DPad` anywhere under `src/`.  Per spec §3 a filter carries
an "ordered list of source ActionIds, ordered list of target
ActionIds"; §4.4 and §4.4's worked example name the four directional
sources and the single vector target of the d-pad filter. -/
def DPad.filter (dp : DPad) : Filter :=
  { sources := [dp.up.id, dp.left.id, dp.down.id, dp.right.id]
    targets := [dp.target.id]
    apply := dp.apply
    save := dp.save }

/-- Corresponds to the body of `if !bindings.contains_key(name) {
insert(name, vec![]) } bindings.get_mut(name).unwrap().push(...)` in
`InputBindings::save`. -/
def bucketPush (name s : String) : List (String × List String) → List (String × List String)
  | [] => [(name, [s])]
  | (n, ss) :: rest =>
    if n = name then (n, ss ++ [s]) :: rest else (n, ss) :: bucketPush name s rest

/-- Inner loop of the transpose in `InputBindings::save` (over the
actions bound to one input); `none` models the `action_name` panic. -/
def saveActs (E : KindEnv) (sess : Session) (i : Inp) :
    List (String × List String) → List Nat → Option (List (String × List String))
  | acc, [] => some acc
  | acc, a :: rest =>
    match Session.action_name sess a with
    | none => none
    | some n => saveActs E sess i (bucketPush n ((E i.kind).toStr i.key) acc) rest

/-- Outer loop of the transpose in `InputBindings::save`. -/
def saveRows (E : KindEnv) (sess : Session) :
    List (String × List String) → InputBindings → Option (List (String × List String))
  | acc, [] => some acc
  | acc, (i, as) :: rest =>
    match saveActs E sess i acc as with
    | none => none
    | some acc' => saveRows E sess acc' rest

/-- Insertion step of the sort modelling `sort_unstable_by(|x, y| x.0.cmp(&y.0))`. -/
def insertRow (x : String × List String) :
    List (String × List String) → List (String × List String)
  | [] => [x]
  | y :: ys => if x.1 ≤ y.1 then x :: y :: ys else y :: insertRow x ys

/-- Models `bindings.sort_unstable_by(|x, y| x.0.cmp(&y.0))` (a sort by
action name; which sorting algorithm Rust uses is irrelevant). -/
def sortRows : List (String × List String) → List (String × List String)
  | [] => []
  | x :: xs => insertRow x (sortRows xs)

/-- Corresponds to `InputBindings::<I>::save` (`k` is `I::NAME`);
`none` models the `action_name` panic. -/
def InputBindings.save (E : KindEnv) (sess : Session) (k : String) (tbl : InputBindings) :
    Option SourceConfig :=
  (saveRows E sess [] tbl).map fun rows => ⟨k, sortRows rows⟩

/-- Maps a fallible (panic-modelling) function over a list, as
`.map(...).collect()` does; `none` propagates a panic. -/
def mapOpt {α β : Type} (f : α → Option β) : List α → Option (List β)
  | [] => some []
  | x :: xs =>
    match f x, mapOpt f xs with
    | some y, some ys => some (y :: ys)
    | _, _ => none

/-- Corresponds to `Bindings::save`. -/
def Bindings.save (E : KindEnv) (b : Bindings) (sess : Session) : Option Config :=
  match mapOpt (fun p => InputBindings.save E sess p.1 p.2) b.actions,
      mapOpt (fun f => f.save sess) b.filters with
  | some sources, some filters => some ⟨sources, filters⟩
  | _, _ => none

/-- Corresponds to `struct FilterBuilder` in `lib.rs`. -/
structure FilterBuilder where
  create_source_actions : Session → FilterConfig → Session × Option FilterLoadError
  load : Session → FilterConfig → Option (Except FilterLoadError Filter)

/-- Corresponds to `pub struct BindingsFactory`.  Each source entry is
keyed by `I::NAME` and stores `(TypeId::of::<I>, builder-closure)`;
both the key and the type id are modelled by the kind name. -/
structure BindingsFactory where
  input_binding_builders :
    List (String × (String × (Session → SourceConfig → Option (InputBindings × List LoadError))))
  filter_builders : List (String × FilterBuilder)

/-- The `for input in inputs` candidate loop inside the
`register_source` closure: try each parsed candidate with `check_type`,
recording rejected types, until one matches.  Returns the chosen input
(if any) and the rejected-type list; `none` models a panic. -/
def pickInput (E : KindEnv) (sess : Session) (k : String) (action : Nat) :
    List String → List String → Option (Option Inp × List String)
  | [], exp => some (none, exp)
  | key :: keys, exp =>
    match Session.check_type E sess action ⟨k, key⟩ with
    | none => none
    | some (.error e) => pickInput E sess k action keys (exp ++ [e.expected])
    | some (.ok ()) => some (some ⟨k, key⟩, exp)

/-- The `for input_str in inputs` loop of the `register_source`
closure; `none` models the `unwrap` panic in the `InputTypeError`
construction. -/
def loadInputStrs (E : KindEnv) (sess : Session) (k : String) (action : Nat) (name : String) :
    InputBindings → List LoadError → List String → Option (InputBindings × List LoadError)
  | tbl, errs, [] => some (tbl, errs)
  | tbl, errs, sstr :: rest =>
    let keys := (E k).fromStr sstr
    if keys.isEmpty then
      loadInputStrs E sess k action name tbl (errs ++ [.UnknownInput sstr]) rest
    else
      match pickInput E sess k action keys [] with
      | none => none
      | some (some i, _) =>
        loadInputStrs E sess k action name (entryPush i action tbl) errs rest
      | some (none, exp) =>
        match Session.get1 sess action with
        | none => none
        | some d =>
          loadInputStrs E sess k action name tbl
            (errs ++ [.InputTypeError name sstr d.ty.tyName exp]) rest

/-- The `for (name, inputs) in &cfg.bindings` loop of the
`register_source` closure. -/
def loadRows (E : KindEnv) (sess : Session) (k : String) :
    InputBindings → List LoadError → List (String × List String) →
    Option (InputBindings × List LoadError)
  | tbl, errs, [] => some (tbl, errs)
  | tbl, errs, (name, inputs) :: rest =>
    match Session.action_id sess name with
    | none => loadRows E sess k tbl (errs ++ [.UnknownAction name]) rest
    | some action =>
      match loadInputStrs E sess k action name tbl errs inputs with
      | none => none
      | some (tbl', errs') => loadRows E sess k tbl' errs' rest

/-- The closure stored by `BindingsFactory::register_source::<I>` (`k`
is `I::NAME`). -/
def registerSourceFn (E : KindEnv) (k : String) (sess : Session) (cfg : SourceConfig) :
    Option (InputBindings × List LoadError) :=
  loadRows E sess k [] [] cfg.bindings

namespace BindingsFactory

/-- Corresponds to `BindingsFactory::empty`. -/
def empty : BindingsFactory := ⟨[], []⟩

/-- Corresponds to `BindingsFactory::register_source::<I>`. -/
def register_source (E : KindEnv) (k : String) (F : BindingsFactory) : BindingsFactory :=
  { F with
    input_binding_builders :=
      alistSet k (k, registerSourceFn E k) F.input_binding_builders }

/-- Corresponds to `BindingsFactory::register_filter::<F>` (the
builder record is supplied by the filter type, cf. `DPad.builder`). -/
def register_filter (name : String) (fb : FilterBuilder) (F : BindingsFactory) :
    BindingsFactory :=
  { F with filter_builders := alistSet name fb F.filter_builders }

end BindingsFactory

/-- The `FilterBuilder` that `register_filter::<DPad>` stores:
`load` wraps `DPad::load`'s result as a boxed `AnyFilter`. -/
def DPad.builder : FilterBuilder :=
  { create_source_actions := DPad.create_source_actions
    load := fun sess cfg => (DPad.load sess cfg).map fun r => r.map DPad.filter }

/-- Corresponds to `BindingsFactory::new` (registers the `DPad` filter). -/
def BindingsFactory.new : BindingsFactory :=
  BindingsFactory.empty.register_filter DPad.NAME DPad.builder

/-- First loop of `BindingsFactory::load`: resolve each filter entry's
builder and run `create_source_actions`, collecting the `(builder,
config)` pairs.  Note that the pair is collected even when
`create_source_actions` failed. -/
def loadFiltersPhase1 (F : BindingsFactory) :
    Session → List LoadError → List (FilterBuilder × FilterConfig) → List FilterConfig →
    Session × List LoadError × List (FilterBuilder × FilterConfig)
  | sess, errs, acc, [] => (sess, errs, acc)
  | sess, errs, acc, fc :: rest =>
    match alistGet fc.ty F.filter_builders with
    | none => loadFiltersPhase1 F sess (errs ++ [.Filter (.UnknownFilter fc.ty)]) acc rest
    | some builder =>
      let (sess', e?) := builder.create_source_actions sess fc
      let errs' := match e? with
        | some e => errs ++ [.Filter e]
        | none => errs
      loadFiltersPhase1 F sess' errs' (acc ++ [(builder, fc)]) rest

/-- Second loop of `BindingsFactory::load`: load each filter body;
`none` propagates a panic inside a filter's `load`. -/
def loadFiltersPhase2 (sess : Session) :
    Bindings → List LoadError → List (FilterBuilder × FilterConfig) →
    Option (Bindings × List LoadError)
  | b, errs, [] => some (b, errs)
  | b, errs, (builder, fc) :: rest =>
    match builder.load sess fc with
    | none => none
    | some (.ok f) => loadFiltersPhase2 sess (b.add_any_filter f) errs rest
    | some (.error e) => loadFiltersPhase2 sess b (errs ++ [.Filter e]) rest

/-- Third loop of `BindingsFactory::load`, over `config.sources`. -/
def loadSources (sess : Session) (F : BindingsFactory) :
    Bindings → List LoadError → List SourceConfig →
    Option (Bindings × List LoadError)
  | b, errs, [] => some (b, errs)
  | b, errs, sc :: rest =>
    match alistGet sc.ty F.input_binding_builders with
    | none => loadSources sess F b (errs ++ [.UnknownSource sc.ty]) rest
    | some (tyKey, builder) =>
      match builder sess sc with
      | none => none
      | some (built, serrs) =>
        loadSources sess F { b with actions := alistSet tyKey built b.actions }
          (errs ++ serrs) rest

/-- Corresponds to `BindingsFactory::load(session, config)`; returns
the (possibly mutated) session, the bindings and the accumulated
errors.  `none` models a panic during loading. -/
def BindingsFactory.load (F : BindingsFactory) (sess : Session) (config : Config) :
    Option (Session × Bindings × List LoadError) :=
  let (sess', errs1, builders) := loadFiltersPhase1 F sess [] [] config.filters
  match loadFiltersPhase2 sess' Bindings.new errs1 builders with
  | none => none
  | some (b, errs2) =>
    (loadSources sess' F b errs2 config.sources).map fun p => (sess', p.1, p.2)

/-- The element type of the (type-erased) cell a seat holds for an
action id, if the action ever fired. -/
def Seat.cellTy (s : Seat) (n : Nat) : Option RTy :=
  match s.state[n]? with
  | some (some c) => some c.ty
  | _ => none

/-- Session invariant: ids are dense (`0..len-1`, in insertion order)
and names are unique. -/
def Session.WF (s : Session) : Prop :=
  s.actions.map (·.id) = List.range s.actions.length
  ∧ (s.actions.map (·.name)).Nodup

/-- Runs a sequence of `create_action` requests (a failed request
leaves the session unchanged, exactly as `create_action` reports). -/
def applyReqs : List (String × RTy) → Session → Session
  | [], s => s
  | (n, t) :: rest, s => applyReqs rest (Session.create_action s n t).2

/-- A sequence of `handle` calls for the same input, stopping at the
first returned error (none occurs in the verified scenarios). -/
def Bindings.handleAll (E : KindEnv) (b : Bindings) (fuel : Nat) (i : Inp) :
    List Val → Seat → RunRes (Seat × Option TypeError)
  | [], s => .ok (s, none)
  | v :: vs, s =>
    match b.handle E fuel i v s with
    | .ok (s', none) => b.handleAll E fuel i vs s'
    | .ok (s', some e) => .ok (s', some e)
    | .panic => .panic
    | .fuelOut => .fuelOut

/-- `n` successive `Seat::poll` calls on one action, collecting each
call's result; `none` models a poll panic. -/
def Seat.pollList (a : Action) : Nat → Seat → Option (List (Option Val) × Seat)
  | 0, s => some ([], s)
  | n + 1, s =>
    match Seat.poll s a with
    | none => none
    | some (r, s') =>
      match Seat.pollList a n s' with
      | none => none
      | some (rs, s'') => some (r :: rs, s'')

/-- The largest number of targets of any filter in `b`. -/
def branchBound (b : Bindings) : Nat :=
  b.filters.foldr (fun f m => max f.targets.length m) 0

/-- A rank function witnessing that the filter source-to-target edges
actually consulted by `propagate` (reverse-index hit, then that
filter's targets) always strictly decrease. -/
def RankedBy (b : Bindings) (rank : Nat → Nat) : Prop :=
  ∀ a idx f, alistGet a b.filter_source_actions = some idx →
    b.filters[idx]? = some f → ∀ t ∈ f.targets, rank t < rank a

/-- Acyclicity of the filter dependency graph: for a finite graph a
rank (topological height) function exists iff there is no cycle. -/
def Acyclic (b : Bindings) : Prop := ∃ rank, RankedBy b rank

/-- Termination measure of the work-list. -/
def wlMeasure (b : Bindings) (rank : Nat → Nat) (wl : List Nat) : Nat :=
  (wl.map fun a => (branchBound b + 1) ^ rank a).sum

/-- The multiset of `(input, action)` pairs recorded in one routing
sub-table. -/
def flattenTbl (tbl : InputBindings) : List (Inp × Nat) :=
  tbl.flatMap fun p => p.2.map fun a => (p.1, a)

/-- The multiset of `(action name, input string)` pairs of one
serialized source entry. -/
def flattenRows (rows : List (String × List String)) : List (String × String) :=
  rows.flatMap fun p => p.2.map fun s => (p.1, s)

/-- How `InputBindings::save` serializes one recorded pair. -/
def pairMap (E : KindEnv) (sess : Session) (p : Inp × Nat) : String × String :=
  ((Session.action_name sess p.2).getD "", (E p.1.kind).toStr p.1.key)

/-- How the `register_source` closure resolves one serialized pair of a
source entry of kind `k` back into a recorded pair. -/
def pairBack (E : KindEnv) (sess : Session) (k : String) (p : String × String) : Inp × Nat :=
  let a := (Session.action_id sess p.1).getD 0
  let ty := ((Session.get1 sess a).map (·.ty)).getD .bool
  let key := (((E k).fromStr p.2).find? (fun key => (E k).visitTy key = ty)).getD ""
  (⟨k, key⟩, a)

/-- The documented `Input` trait contract (`lib.rs` lines 175-184):
`from_str` of `to_string`'s output contains the value itself, and
`from_str` returns at most one input of any given payload type. -/
def InputContract (E : KindEnv) (i : Inp) : Prop :=
  i.key ∈ (E i.kind).fromStr ((E i.kind).toStr i.key)
  ∧ ((E i.kind).fromStr ((E i.kind).toStr i.key)).Pairwise
      (fun k1 k2 => (E i.kind).visitTy k1 ≠ (E i.kind).visitTy k2)

/-- Well-formedness of one routing sub-table with respect to its
session, as established by successful `bind` calls: unique input keys,
inputs of the sub-table's kind satisfying the `Input` contract, and
every recorded action defined with the input's payload type. -/
def TblWF (E : KindEnv) (sess : Session) (k : String) (tbl : InputBindings) : Prop :=
  (tbl.map (·.1)).Nodup
  ∧ ∀ p ∈ tbl, p.1.kind = k
      ∧ InputContract E p.1
      ∧ ∀ a ∈ p.2, ∃ d, Session.get1 sess a = some d ∧ d.ty = visitTy E p.1

/-- How one serialized `(action name, input string)` pair of a source
entry of kind `k` resolves on reload: the action name is known, the
string parses, and the first type-matching candidate is the one
`pairBack` computes. -/
def Resolves (E : KindEnv) (sess : Session) (k : String) (p : String × String) : Prop :=
  ∃ a d key, Session.action_id sess p.1 = some a ∧ Session.get1 sess a = some d
    ∧ (E k).fromStr p.2 ≠ []
    ∧ ((E k).fromStr p.2).find? (fun x => (E k).visitTy x = d.ty) = some key
    ∧ pairBack E sess k p = (⟨k, key⟩, a)

/-- Relation between a routing sub-table and its serialized source
entry: `InputBindings::save` produces the entry, its binding list is
sorted by action name, and reloading it through the `register_source`
closure reproduces a sub-table with permuted-equal action lists for
every input. -/
def SavedSource (E : KindEnv) (sess : Session) (p : String × InputBindings)
    (sc : SourceConfig) : Prop :=
  InputBindings.save E sess p.1 p.2 = some sc
  ∧ sc.ty = p.1
  ∧ (sc.bindings.map (·.1)).Pairwise (fun a b => a ≤ b)
  ∧ ∃ tbl', registerSourceFn E p.1 sess sc = some (tbl', [])
      ∧ ∀ i : Inp, ((alistGet i tbl').getD []).Perm ((alistGet i p.2).getD [])

/-- A small concrete input-kind environment used in witnesses: every
key of any kind produces `bool`, except the key "space" which produces
`()`; a string parses to the single input with that key and formats
back to it. -/
def kbdEnv : KindEnv := fun _ =>
  ⟨fun k => if k = "space" then .unit else .bool, fun s => [s], fun s => s⟩

/-- A concrete session used in witnesses: a `vec2` action "move"
followed by the four `bool` source actions a `DPad` filter creates for
it (ids 1-4). -/
def dpadSess : Session :=
  (DPad.create_source_actions (applyReqs [("move", RTy.vec2)] Session.new)
    ⟨DPad.NAME, ["move"]⟩).1

/-- The `DPad` over `dpadSess`'s action ids that `DPad::load` rebuilds. -/
def dpadW : DPad :=
  ⟨⟨0, .vec2⟩, ⟨1, .bool⟩, ⟨2, .bool⟩, ⟨3, .bool⟩, ⟨4, .bool⟩⟩

/-- A concrete filter-bearing binding over `dpadSess` used in
witnesses: one `kbd` source entry (key "w" bound to the `move.up`
action) plus the `DPad` filter, with the reverse index
`add_any_filter` builds for its four sources. -/
def dpadBindings : Bindings :=
  ⟨[("kbd", [(⟨"kbd", "w"⟩, [1])])], [DPad.filter dpadW],
    [(4, 0), (3, 0), (2, 0), (1, 0)]⟩

/-! ### Association-list lemmas -/

theorem alistGet_cons {κ β : Type} [DecidableEq κ] (k k' : κ) (v : β) (l : List (κ × β)) :
    alistGet k ((k', v) :: l) = if k' = k then some v else alistGet k l := by
  by_cases h : k' = k <;> simp [alistGet, List.find?_cons, h]

theorem alistGet_set_self {κ β : Type} [DecidableEq κ] (k : κ) (v : β) (l : List (κ × β)) :
    alistGet k (alistSet k v l) = some v := by
  induction l with
  | nil => simp [alistSet, alistGet_cons]
  | cons p rest ih =>
    obtain ⟨k', v'⟩ := p
    by_cases h : k' = k
    · simp [alistSet, h, alistGet_cons]
    · simp [alistSet, h, alistGet_cons, ih]

theorem alistGet_set_other {κ β : Type} [DecidableEq κ] {k k' : κ} (h : k' ≠ k) (v : β)
    (l : List (κ × β)) : alistGet k' (alistSet k v l) = alistGet k' l := by
  induction l with
  | nil => simp [alistSet, alistGet_cons, Ne.symm h]
  | cons p rest ih =>
    obtain ⟨k'', v''⟩ := p
    by_cases hk : k'' = k
    · subst hk
      simp [alistSet, alistGet_cons, Ne.symm h]
    · simp [alistSet, hk, alistGet_cons, ih]

theorem entryPush_self (i : Inp) (a : Nat) (tbl : InputBindings) :
    alistGet i (entryPush i a tbl) = some ((alistGet i tbl).getD [] ++ [a]) := by
  induction tbl with
  | nil => simp [entryPush, alistGet_cons, alistGet]
  | cons p rest ih =>
    obtain ⟨j, as⟩ := p
    by_cases h : j = i
    · simp [entryPush, h, alistGet_cons]
    · simp [entryPush, h, alistGet_cons, ih]

theorem entryPush_other {i j : Inp} (h : j ≠ i) (a : Nat) (tbl : InputBindings) :
    alistGet j (entryPush i a tbl) = alistGet j tbl := by
  induction tbl with
  | nil => simp [entryPush, alistGet_cons, Ne.symm h, alistGet]
  | cons p rest ih =>
    obtain ⟨j', as⟩ := p
    by_cases hk : j' = i
    · subst hk
      simp [entryPush, alistGet_cons, Ne.symm h]
    · simp [entryPush, hk, alistGet_cons, ih]

theorem boundActions_alt (b : Bindings) (i : Inp) :
    b.boundActions i = (alistGet i ((alistGet i.kind b.actions).getD [])).getD [] := by
  cases h : alistGet i.kind b.actions with
  | none =>
    simp only [Bindings.boundActions, h]
    simp [alistGet]
  | some tbl => simp [Bindings.boundActions, h]

/-! ### Seat lemmas -/

theorem lt_of_getElem?_some {α : Type} {l : List α} {n : Nat} {x : α}
    (h : l[n]? = some x) : n < l.length := by
  by_contra hge
  rw [List.getElem?_len_le (Nat.le_of_not_lt hge)] at h
  cases h

theorem push_existing {s : Seat} {a : Nat} {c : ActionState} {v : Val}
    (hc : s.state[a]? = some (some c)) (hty : c.ty = v.ty) :
    Seat.push s a v = (⟨s.state.set a (some ⟨c.ty, c.queue ++ [v], v⟩)⟩, none) := by
  have hlt : a < s.state.length := lt_of_getElem?_some hc
  simp [Seat.push, Nat.not_le.mpr hlt, hc, hty]

theorem push_mismatch {s : Seat} {a : Nat} {c : ActionState} {v : Val}
    (hc : s.state[a]? = some (some c)) (hty : c.ty ≠ v.ty) :
    Seat.push s a v = (s, some ⟨c.ty.tyName, v.ty.tyName⟩) := by
  have hlt : a < s.state.length := lt_of_getElem?_some hc
  simp [Seat.push, Nat.not_le.mpr hlt, hc, hty]

theorem push_fresh {s : Seat} {a : Nat} {v : Val}
    (hc : s.state[a]? = none ∨ s.state[a]? = some none) :
    (Seat.push s a v).2 = none
    ∧ (Seat.push s a v).1.state[a]? = some (some ⟨v.ty, [v], v⟩) := by
  rcases hc with hc | hc
  · have hge : s.state.length ≤ a := by
      by_contra hlt
      rcases List.getElem?_eq_some_iff.mpr ⟨Nat.lt_of_not_le hlt, rfl⟩ with h'
      rw [hc] at h'
      cases h'
    have hrep : (s.state ++ List.replicate (a + 1 - s.state.length) none)[a]?
        = some (none : Option ActionState) := by
      rw [List.getElem?_append]
      simp only [Nat.not_lt.mpr hge, if_false]
      rw [List.getElem?_replicate]
      simp [Nat.lt_sub_of_add_lt, Nat.sub_lt_sub_right hge (Nat.lt_succ_self a)]
    have hlen : a < (s.state ++ List.replicate (a + 1 - s.state.length) none).length := by
      simp [List.length_append, List.length_replicate]
      omega
    have hpush : Seat.push s a v
        = (⟨(s.state ++ List.replicate (a + 1 - s.state.length) none).set a
            (some ⟨v.ty, [v], v⟩)⟩, none) := by
      simp [Seat.push, hge, hrep]
    rw [hpush]
    exact ⟨rfl, List.getElem?_set_self hlen⟩
  · have hlt : a < s.state.length := lt_of_getElem?_some hc
    have hpush : Seat.push s a v
        = (⟨s.state.set a (some ⟨v.ty, [v], v⟩)⟩, none) := by
      simp [Seat.push, Nat.not_le.mpr hlt, hc]
    rw [hpush]
    exact ⟨rfl, List.getElem?_set_self hlt⟩

theorem poll_queue {s : Seat} {a : Action} {c : ActionState}
    (hc : s.state[a.id]? = some (some c)) (hty : c.ty = a.ty) :
    Seat.poll s a = match c.queue with
      | [] => some (none, s)
      | v :: rest => some (some v, ⟨s.state.set a.id (some ⟨c.ty, rest, c.latest⟩)⟩) := by
  cases hq : c.queue <;> simp [Seat.poll, hc, hty, hq]

theorem get_cell {s : Seat} {a : Action} {c : ActionState}
    (hc : s.state[a.id]? = some (some c)) (hty : c.ty = a.ty) :
    Seat.get s a = some (some c.latest) := by
  simp [Seat.get, hc, hty]

theorem pollList_succ (a : Action) (n : Nat) (s : Seat) :
    Seat.pollList a (n + 1) s = match Seat.poll s a with
      | none => none
      | some (r, s') => match Seat.pollList a n s' with
        | none => none
        | some (rs, s'') => some (r :: rs, s'') := rfl

theorem pollList_drain (a : Action) :
    ∀ (q : List Val) (s : Seat) (w : Val),
      s.state[a.id]? = some (some ⟨a.ty, q, w⟩) →
      ∃ s2, Seat.pollList a (q.length + 1) s = some (q.map some ++ [none], s2)
        ∧ s2.state[a.id]? = some (some ⟨a.ty, [], w⟩) := by
  intro q
  induction q with
  | nil =>
    intro s w h
    refine ⟨s, ?_, h⟩
    have hp : Seat.poll s a = some (none, s) := by
      simpa using poll_queue h rfl
    rw [List.length_nil, pollList_succ, hp]
    rfl
  | cons v q ih =>
    intro s w h
    have hlt : a.id < s.state.length := lt_of_getElem?_some h
    have hp : Seat.poll s a
        = some (some v, ⟨s.state.set a.id (some ⟨a.ty, q, w⟩)⟩) := by
      simpa using poll_queue h rfl
    have hcell : (⟨s.state.set a.id (some ⟨a.ty, q, w⟩)⟩ : Seat).state[a.id]?
        = some (some ⟨a.ty, q, w⟩) := by
      simp [List.getElem?_set_self hlt]
    obtain ⟨s2, hrun, hs2⟩ := ih ⟨s.state.set a.id (some ⟨a.ty, q, w⟩)⟩ w hcell
    refine ⟨s2, ?_, hs2⟩
    rw [List.length_cons, pollList_succ, hp]
    dsimp only
    rw [hrun]
    rfl

/-! ### Claim C5 -/

/-- C5: for every Seat state, `flush` empties the pending queue of every
action cell (an immediate `poll` returns `None` for every action) while
leaving every cell's latest value unchanged, so `get` after `flush`
returns the same values as before. -/
theorem c5_flush_clears_queues_preserves_latest (s : Seat) :
    (∀ (n : Nat) (c : ActionState), (Seat.flush s).state[n]? = some (some c) → c.queue = [])
    ∧ (∀ a : Action, (Seat.cellTy s a.id = none ∨ Seat.cellTy s a.id = some a.ty) →
        Seat.poll (Seat.flush s) a = some (none, Seat.flush s))
    ∧ (∀ a : Action, Seat.get (Seat.flush s) a = Seat.get s a) := by
  have hmap : ∀ (n : Nat), (Seat.flush s).state[n]?
      = (s.state[n]?).map (Option.map fun c => ⟨c.ty, [], c.latest⟩) := by
    intro n
    simp [Seat.flush]
  refine ⟨?_, ?_, ?_⟩
  · intro n c h
    rw [hmap] at h
    cases hs : s.state[n]? with
    | none => rw [hs] at h; cases h
    | some oc =>
      rw [hs] at h
      cases oc with
      | none => cases h
      | some c0 =>
        simp at h
        rw [← h]
  · intro a hty
    cases hs : s.state[a.id]? with
    | none => simp [Seat.poll, hmap, hs]
    | some oc =>
      cases oc with
      | none => simp [Seat.poll, hmap, hs]
      | some c =>
        have : c.ty = a.ty := by
          rcases hty with hty | hty <;> simp [Seat.cellTy, hs] at hty
          exact hty
        simp [Seat.poll, hmap, hs, this]
  · intro a
    cases hs : s.state[a.id]? with
    | none => simp [Seat.get, hmap, hs]
    | some oc =>
      cases oc with
      | none => simp [Seat.get, hmap, hs]
      | some c => by_cases h : c.ty = a.ty <;> simp [Seat.get, hmap, hs, h]

/-- Witness for C5 at a concrete seat and action. -/
theorem c5_witness :
    Seat.poll (Seat.flush ((Seat.new.push 0 (Val.bool true)).1)) ⟨0, RTy.bool⟩
      = some (none, Seat.flush ((Seat.new.push 0 (Val.bool true)).1))
    ∧ Seat.get (Seat.flush ((Seat.new.push 0 (Val.bool true)).1)) ⟨0, RTy.bool⟩
      = Seat.get ((Seat.new.push 0 (Val.bool true)).1) ⟨0, RTy.bool⟩ :=
  ⟨(c5_flush_clears_queues_preserves_latest _).2.1 ⟨0, RTy.bool⟩ (by decide),
   (c5_flush_clears_queues_preserves_latest _).2.2 ⟨0, RTy.bool⟩⟩

/-! ### Claim C10 -/

/-- C10: pushing a value whose type differs from the type established
by the first push to that cell returns `Err(TypeError)` carrying the
stored type's name and the new value's type name, and leaves the seat
(in particular the cell's queue and latest value) unchanged. -/
theorem c10_push_type_mismatch_atomic (s : Seat) (a : Nat) (c : ActionState) (v : Val)
    (hc : s.state[a]? = some (some c)) (hne : c.ty ≠ v.ty) :
    Seat.push s a v = (s, some ⟨c.ty.tyName, v.ty.tyName⟩) :=
  push_mismatch hc hne

/-- Witness for C10: a `bool` cell rejects a `()` push, naming both types. -/
theorem c10_witness :
    Seat.push ((Seat.new.push 0 (Val.bool true)).1) 0 Val.unit
      = ((Seat.new.push 0 (Val.bool true)).1, some ⟨"bool", "()"⟩) :=
  c10_push_type_mismatch_atomic _ 0 ⟨RTy.bool, [Val.bool true], Val.bool true⟩ Val.unit
    (by decide) (by decide)

/-! ### Session lemmas -/

theorem create_action_error {s : Session} {n : String} (t : RTy)
    (h : ∃ d ∈ s.actions, d.name = n) :
    Session.create_action s n t = (.error ⟨n⟩, s) := by
  obtain ⟨d, hd, hn⟩ := h
  have hany : s.actions.any (fun d => d.id = s.actions.length || d.name = n) = true := by
    rw [List.any_eq_true]
    exact ⟨d, hd, by simp [hn]⟩
  simp [Session.create_action, hany]

theorem create_action_ok {s : Session} {n : String} (t : RTy)
    (hWF : s.WF) (h : ∀ d ∈ s.actions, d.name ≠ n) :
    Session.create_action s n t
      = (.ok ⟨s.actions.length, t⟩, ⟨s.actions ++ [⟨s.actions.length, n, t⟩]⟩) := by
  have hany : s.actions.any (fun d => d.id = s.actions.length || d.name = n) = false := by
    rw [List.any_eq_false]
    intro d hd
    simp only [Bool.or_eq_true, decide_eq_true_eq, not_or]
    refine ⟨?_, h d hd⟩
    have hid : d.id ∈ s.actions.map (·.id) := List.mem_map_of_mem _ hd
    rw [hWF.1] at hid
    have := List.mem_range.mp hid
    omega
  simp [Session.create_action, hany]

theorem create_action_WF (s : Session) (n : String) (t : RTy) (h : s.WF) :
    (Session.create_action s n t).2.WF := by
  by_cases hname : ∃ d ∈ s.actions, d.name = n
  · rw [create_action_error t hname]
    exact h
  · push_neg at hname
    rw [create_action_ok t h hname]
    refine ⟨?_, ?_⟩
    · dsimp only
      rw [List.map_append, h.1]
      simp [List.range_succ]
    · dsimp only
      rw [List.map_append, List.nodup_append]
      refine ⟨h.2, List.nodup_singleton _, ?_⟩
      intro x hx
      obtain ⟨d, hd, rfl⟩ := List.mem_map.mp hx
      simp only [List.map_cons, List.map_nil, List.mem_singleton]
      exact hname d hd

theorem new_WF : Session.WF Session.new := by
  constructor <;> simp [Session.new]

theorem applyReqs_WF_of (reqs : List (String × RTy)) :
    ∀ s : Session, s.WF → (applyReqs reqs s).WF := by
  induction reqs with
  | nil => intro s h; exact h
  | cons p rest ih =>
    intro s h
    exact ih _ (create_action_WF s p.1 p.2 h)

theorem applyReqs_WF (reqs : List (String × RTy)) : (applyReqs reqs Session.new).WF :=
  applyReqs_WF_of reqs Session.new new_WF

theorem WF_ids_nodup {s : Session} (h : s.WF) : (s.actions.map (·.id)).Nodup := by
  rw [h.1]
  exact List.nodup_range _

theorem get1_of_mem {s : Session} {d : ActionDefinition} (h : s.WF) (hd : d ∈ s.actions) :
    s.get1 d.id = some d := by
  cases hf : s.get1 d.id with
  | none =>
    rw [Session.get1, List.find?_eq_none] at hf
    exact absurd (by simp) (hf d hd)
  | some d' =>
    have hmem := List.mem_of_find?_eq_some hf
    have hp := List.find?_some hf
    simp only [decide_eq_true_eq] at hp
    rw [List.inj_on_of_nodup_map (WF_ids_nodup h) hmem hd hp]

theorem action_of_mem {s : Session} {d : ActionDefinition} (h : s.WF) (hd : d ∈ s.actions) :
    Session.action s d.id d.ty = some (.ok ⟨d.id, d.ty⟩) := by
  rw [Session.action, get1_of_mem h hd]
  simp

/-! ### Claim C9 -/

/-- C9: after any sequence of `create_action` calls, the allocated ids
are exactly `0..n-1` in order (one per success, assigned sequentially,
never reused) and names are unique; `create_action` with a used name
fails with `DuplicateAction` and leaves the session unchanged, while a
fresh name is allocated the next sequential id; every created action's
handle remains valid and usable. -/
theorem c9_session_ids_dense_duplicate_fails (reqs : List (String × RTy)) :
    ((applyReqs reqs Session.new).actions.map (·.id)
        = List.range (applyReqs reqs Session.new).actions.length)
    ∧ ((applyReqs reqs Session.new).actions.map (·.name)).Nodup
    ∧ (∀ (n : String) (t : RTy), (∃ d ∈ (applyReqs reqs Session.new).actions, d.name = n) →
        Session.create_action (applyReqs reqs Session.new) n t
          = (.error ⟨n⟩, applyReqs reqs Session.new))
    ∧ (∀ (n : String) (t : RTy), (∀ d ∈ (applyReqs reqs Session.new).actions, d.name ≠ n) →
        Session.create_action (applyReqs reqs Session.new) n t
          = (.ok ⟨(applyReqs reqs Session.new).actions.length, t⟩,
             ⟨(applyReqs reqs Session.new).actions
               ++ [⟨(applyReqs reqs Session.new).actions.length, n, t⟩]⟩))
    ∧ (∀ d ∈ (applyReqs reqs Session.new).actions,
        Session.action (applyReqs reqs Session.new) d.id d.ty = some (.ok ⟨d.id, d.ty⟩)) := by
  have hWF := applyReqs_WF reqs
  exact ⟨hWF.1, hWF.2,
    fun n t h => create_action_error t h,
    fun n t h => create_action_ok t hWF h,
    fun d hd => action_of_mem hWF hd⟩

/-- Witness for C9: a second action named `"jump"` is rejected and the
first `"jump"` handle stays usable. -/
theorem c9_witness :
    Session.create_action (applyReqs [("jump", RTy.bool)] Session.new) "jump" RTy.unit
      = (.error ⟨"jump"⟩, applyReqs [("jump", RTy.bool)] Session.new)
    ∧ Session.action (applyReqs [("jump", RTy.bool)] Session.new) 0 RTy.bool
      = some (.ok ⟨0, RTy.bool⟩) :=
  ⟨(c9_session_ids_dense_duplicate_fails [("jump", RTy.bool)]).2.2.1 "jump" RTy.unit
      ⟨⟨0, "jump", RTy.bool⟩, by decide, rfl⟩,
   (c9_session_ids_dense_duplicate_fails [("jump", RTy.bool)]).2.2.2.2
      ⟨0, "jump", RTy.bool⟩ (by decide)⟩

/-! ### Claim C3 -/

/-- C3: for a type-mismatched (input, action) pair `bind` returns a
`TypeError` and leaves the routing table unchanged (no entry and no
sub-table is added — the returned bindings are the input bindings);
for a matching pair `bind` succeeds and records `input -> action` in
the sub-table for that input's type, leaving every other input's
bound-action list unchanged. -/
theorem c3_bind_type_checked (E : KindEnv) (b : Bindings) (i : Inp) (action : Nat)
    (sess : Session) (d : ActionDefinition) (hd : Session.get1 sess action = some d) :
    (d.ty ≠ visitTy E i →
      Bindings.bind E b i action sess
        = some (b, some ⟨(visitTy E i).tyName, d.ty.tyName⟩))
    ∧ (d.ty = visitTy E i →
      ∃ b', Bindings.bind E b i action sess = some (b', none)
        ∧ b'.boundActions i = b.boundActions i ++ [action]
        ∧ (∀ j : Inp, j ≠ i → b'.boundActions j = b.boundActions j)) := by
  constructor
  · intro hne
    simp [Bindings.bind, Session.check_type, hd, hne]
  · intro heq
    set tbl := (alistGet i.kind b.actions).getD [] with htbl
    refine ⟨{ b with actions := alistSet i.kind (entryPush i action tbl) b.actions },
      ?_, ?_, ?_⟩
    · simp [Bindings.bind, Session.check_type, hd, heq]
    · rw [boundActions_alt, boundActions_alt]
      dsimp only
      rw [alistGet_set_self, ← htbl]
      simp [entryPush_self]
    · intro j hj
      rw [boundActions_alt, boundActions_alt]
      dsimp only
      by_cases hk : j.kind = i.kind
      · rw [hk, alistGet_set_self, ← htbl]
        simp [entryPush_other hj]
      · rw [alistGet_set_other hk]

/-- Witness for C3 at a concrete session, input and action: a `()`
input is rejected by a `bool` action without touching the table, and a
`bool` input is recorded. -/
theorem c3_witness :
    (Bindings.bind kbdEnv Bindings.new ⟨"kbd", "space"⟩ 0 (applyReqs [("jump", RTy.bool)] Session.new)
      = some (Bindings.new, some ⟨"()", "bool"⟩))
    ∧ ∃ b', Bindings.bind kbdEnv Bindings.new ⟨"kbd", "w"⟩ 0 (applyReqs [("jump", RTy.bool)] Session.new)
        = some (b', none)
      ∧ b'.boundActions ⟨"kbd", "w"⟩ = Bindings.new.boundActions ⟨"kbd", "w"⟩ ++ [0]
      ∧ (∀ j : Inp, j ≠ ⟨"kbd", "w"⟩ → b'.boundActions j = Bindings.new.boundActions j) :=
  ⟨(c3_bind_type_checked kbdEnv Bindings.new ⟨"kbd", "space"⟩ 0 _ ⟨0, "jump", RTy.bool⟩
      (by decide)).1 (by decide),
   (c3_bind_type_checked kbdEnv Bindings.new ⟨"kbd", "w"⟩ 0 _ ⟨0, "jump", RTy.bool⟩
      (by decide)).2 (by decide)⟩

/-! ### Claim C4 -/

/-- C4: `handle` returns a `TypeError` iff the supplied payload's type
differs from the type the input declares (in which case the seat is
untouched); for a matching payload, an input with no sub-table or no
bound actions is a successful no-op. -/
theorem c4_handle_type_error_iff_unbound_noop (E : KindEnv) (b : Bindings) (fuel : Nat)
    (i : Inp) (v : Val) (s : Seat) :
    ((∃ s' e, Bindings.handle E b fuel i v s = .ok (s', some e)) ↔ v.ty ≠ visitTy E i)
    ∧ (v.ty ≠ visitTy E i →
        Bindings.handle E b fuel i v s = .ok (s, some ⟨(visitTy E i).tyName, v.ty.tyName⟩))
    ∧ (v.ty = visitTy E i → b.boundActions i = [] →
        Bindings.handle E b fuel i v s = .ok (s, none)) := by
  have herr : v.ty ≠ visitTy E i →
      Bindings.handle E b fuel i v s = .ok (s, some ⟨(visitTy E i).tyName, v.ty.tyName⟩) := by
    intro hne
    simp [Bindings.handle, hne]
  have hnoerr : v.ty = visitTy E i →
      ∀ s' e, Bindings.handle E b fuel i v s ≠ .ok (s', some e) := by
    intro heq s' e
    have h1 : ¬(v.ty ≠ visitTy E i) := by simp [heq]
    simp only [Bindings.handle, if_neg h1]
    cases h2 : alistGet i.kind b.actions with
    | none => simp
    | some tbl =>
      cases h3 : alistGet i tbl with
      | none => simp [h3]
      | some acts =>
        cases h4 : b.handleActions fuel v acts s <;> simp [h3, h4]
  have hnoop : v.ty = visitTy E i → b.boundActions i = [] →
      Bindings.handle E b fuel i v s = .ok (s, none) := by
    intro heq hbnd
    have h1 : ¬(v.ty ≠ visitTy E i) := by simp [heq]
    cases h2 : alistGet i.kind b.actions with
    | none => simp [Bindings.handle, if_neg h1, h2]
    | some tbl =>
      cases h3 : alistGet i tbl with
      | none => simp [Bindings.handle, if_neg h1, h2, h3]
      | some acts =>
        have hacts : acts = [] := by
          simp [Bindings.boundActions, h2, h3] at hbnd
          exact hbnd
        subst hacts
        simp [Bindings.handle, if_neg h1, h2, h3, Bindings.handleActions]
  refine ⟨⟨?_, fun hne => ⟨s, _, herr hne⟩⟩, herr, hnoop⟩
  intro ⟨s', e, hok⟩
  by_contra heq
  exact hnoerr heq s' e hok

/-- Witness for C4 at a concrete unbound input: matching payload is a
successful no-op. -/
theorem c4_witness :
    Bindings.handle kbdEnv Bindings.new 1 ⟨"kbd", "w"⟩ (Val.bool true) Seat.new
      = .ok (Seat.new, none) :=
  (c4_handle_type_error_iff_unbound_noop kbdEnv Bindings.new 1 ⟨"kbd", "w"⟩
    (Val.bool true) Seat.new).2.2 (by decide) (by decide)

/-! ### Claim C2 -/

/-- C2 (code bug): `BindingsFactory::load` does not return normally on
every configuration.  For a registered `dpad` filter and a filter entry
with zero targets, `create_source_actions` records `WrongOutputCount`
but the builder is still queued, and `DPad::load` then evaluates
`cfg.targets[0]` on the empty target list — an out-of-bounds panic
(modelled by `none`) — contradicting `load`'s documented behaviour that
malformed inputs are recorded in the returned `LoadError`s and "will
not terminate parsing". -/
theorem c2_load_panics_on_dpad_without_targets :
    BindingsFactory.new.load Session.new ⟨[], [⟨"dpad", []⟩]⟩ = none := by
  rfl

/-! ### Claim C1 lemmas -/

theorem propagate_no_filters (b : Bindings) (hb : b.filter_source_actions = [])
    (m : Nat) (a : Nat) (s : Seat) : b.propagate (m + 1) [a] s = .ok s := by
  have h : alistGet a b.filter_source_actions = none := by
    rw [hb]
    rfl
  simp [Bindings.propagate, h]

theorem handleActions_single (b : Bindings) (hb : b.filter_source_actions = [])
    (m : Nat) (v : Val) (a : Nat) (s s' : Seat)
    (hpush : Seat.push s a v = (s', none)) :
    b.handleActions (m + 1) v [a] s = .ok s' := by
  simp only [Bindings.handleActions, hpush, propagate_no_filters b hb m a s']

theorem handle_single (E : KindEnv) (i : Inp) (action : Nat) (v : Val) (m : Nat)
    (s s' : Seat) (hv : v.ty = visitTy E i)
    (hpush : Seat.push s action v = (s', none)) :
    Bindings.handle E ⟨[(i.kind, [(i, [action])])], [], []⟩ (m + 1) i v s
      = .ok (s', none) := by
  have h1 : ¬(v.ty ≠ visitTy E i) := by simp [hv]
  have hga : alistGet i.kind [(i.kind, [(i, [action])])] = some [(i, [action])] := by
    simp [alistGet_cons]
  have hgi : alistGet i [(i, [action])] = some [action] := by
    simp [alistGet_cons]
  have hstep := handleActions_single ⟨[(i.kind, [(i, [action])])], [], []⟩ rfl m v action s s' hpush
  simp only [Bindings.handle, if_neg h1, hga, hgi, hstep]

theorem getLast_cons_eq_getLastD (v : Val) (vs : List Val) (h : v :: vs ≠ []) :
    (v :: vs).getLast h = vs.getLastD v := by
  induction vs generalizing v with
  | nil => rfl
  | cons w ws ih =>
    rw [List.getLast_cons (by simp), ih w (by simp)]
    exact (List.getLastD_cons _ _ _).symm

theorem handleAll_queue (E : KindEnv) (i : Inp) (action : Nat) (m : Nat) :
    ∀ (vs : List Val) (s : Seat) (q : List Val) (w : Val),
      (∀ v ∈ vs, v.ty = visitTy E i) →
      s.state[action]? = some (some ⟨visitTy E i, q, w⟩) →
      ∃ s1, Bindings.handleAll E ⟨[(i.kind, [(i, [action])])], [], []⟩ (m + 1) i vs s
          = .ok (s1, none)
        ∧ s1.state[action]? = some (some ⟨visitTy E i, q ++ vs, vs.getLastD w⟩) := by
  intro vs
  induction vs with
  | nil =>
    intro s q w _ hc
    exact ⟨s, rfl, by simpa using hc⟩
  | cons v vs ih =>
    intro s q w hvt hc
    have hvty : v.ty = visitTy E i := hvt v (List.mem_cons_self v vs)
    have hcty : (⟨visitTy E i, q, w⟩ : ActionState).ty = v.ty := by
      simp [hvty]
    have hpush := push_existing hc hcty
    have hstep := handle_single E i action v m s _ hvty hpush
    have hlt : action < s.state.length := lt_of_getElem?_some hc
    have hcell : (⟨s.state.set action (some ⟨visitTy E i, q ++ [v], v⟩)⟩ : Seat).state[action]?
        = some (some ⟨visitTy E i, q ++ [v], v⟩) := List.getElem?_set_self hlt
    obtain ⟨s1, hrun, hs1⟩ :=
      ih ⟨s.state.set action (some ⟨visitTy E i, q ++ [v], v⟩)⟩ (q ++ [v]) v
        (fun u hu => hvt u (List.mem_cons_of_mem v hu)) hcell
    refine ⟨s1, ?_, ?_⟩
    · simp only [Bindings.handleAll, hstep, hrun]
    · rw [hs1, List.append_assoc, List.singleton_append, List.getLastD_cons]

/-! ### Claim C1 -/

/-- C1: after a successful `bind` of a type-matching (input, action)
pair into empty bindings, every `handle` call pushes the payload for
the bound action; the payloads are then observed exactly once each via
`poll`, in FIFO order of the pushes, with `None` once the queue is
drained, while `get` persistently returns the most recently pushed
payload (both before and after the queue is drained). -/
theorem c1_bind_handle_poll_fifo_get_latest (E : KindEnv) (sess : Session) (i : Inp)
    (action : Nat) (d : ActionDefinition) (hd : Session.get1 sess action = some d)
    (hty : d.ty = visitTy E i) (fuel : Nat) (hfuel : 0 < fuel)
    (vs : List Val) (hne : vs ≠ []) (hvty : ∀ v ∈ vs, v.ty = visitTy E i)
    (s0 : Seat) (hs0 : s0.state[action]? = none ∨ s0.state[action]? = some none) :
    Bindings.bind E Bindings.new i action sess
      = some (⟨[(i.kind, [(i, [action])])], [], []⟩, none)
    ∧ ∃ s1 s2,
        Bindings.handleAll E ⟨[(i.kind, [(i, [action])])], [], []⟩ fuel i vs s0
          = .ok (s1, none)
        ∧ Seat.get s1 ⟨action, visitTy E i⟩ = some (some (vs.getLast hne))
        ∧ Seat.pollList ⟨action, visitTy E i⟩ (vs.length + 1) s1
            = some (vs.map some ++ [none], s2)
        ∧ Seat.get s2 ⟨action, visitTy E i⟩ = some (some (vs.getLast hne)) := by
  obtain ⟨m, rfl⟩ : ∃ m, fuel = m + 1 := ⟨fuel - 1, by omega⟩
  constructor
  · simp [Bindings.bind, Session.check_type, hd, hty, Bindings.new, alistGet, alistSet,
      entryPush]
  · obtain ⟨v, vs', rfl⟩ := List.exists_cons_of_ne_nil hne
    have hvty0 : v.ty = visitTy E i := hvty v (List.mem_cons_self v vs')
    obtain ⟨hp2, hpcell⟩ := push_fresh (v := v) hs0
    have hpush : Seat.push s0 action v = ((Seat.push s0 action v).1, none) := by
      rw [← hp2]
    have hstep := handle_single E i action v m s0 _ hvty0 hpush
    rw [hvty0] at hpcell
    obtain ⟨s1, hrun, hs1⟩ :=
      handleAll_queue E i action m vs' ((Seat.push s0 action v).1) [v] v
        (fun u hu => hvty u (List.mem_cons_of_mem v hu)) hpcell
    have hall : Bindings.handleAll E ⟨[(i.kind, [(i, [action])])], [], []⟩ (m + 1) i
        (v :: vs') s0 = .ok (s1, none) := by
      simp only [Bindings.handleAll, hstep, hrun]
    have hlast : (v :: vs').getLast hne = vs'.getLastD v := getLast_cons_eq_getLastD v vs' hne
    have hs1' : s1.state[(⟨action, visitTy E i⟩ : Action).id]?
        = some (some ⟨(⟨action, visitTy E i⟩ : Action).ty, v :: vs', vs'.getLastD v⟩) := by
      simpa using hs1
    obtain ⟨s2, hdrain, hs2⟩ := pollList_drain ⟨action, visitTy E i⟩ (v :: vs') s1
      (vs'.getLastD v) hs1'
    refine ⟨s1, s2, hall, ?_, ?_, ?_⟩
    · rw [get_cell hs1' rfl, hlast]
    · simpa using hdrain
    · rw [get_cell hs2 rfl, hlast]

/-- Witness for C1: one bound input, two pushed payloads, observed in
FIFO order exactly once with `get` reporting the latest. -/
theorem c1_witness :
    Bindings.bind kbdEnv Bindings.new ⟨"kbd", "w"⟩ 0 (applyReqs [("jump", RTy.bool)] Session.new)
      = some (⟨[("kbd", [(⟨"kbd", "w"⟩, [0])])], [], []⟩, none)
    ∧ ∃ s1 s2,
        Bindings.handleAll kbdEnv ⟨[("kbd", [(⟨"kbd", "w"⟩, [0])])], [], []⟩ 1 ⟨"kbd", "w"⟩
          [Val.bool true, Val.bool false] Seat.new
          = .ok (s1, none)
        ∧ Seat.get s1 ⟨0, RTy.bool⟩ = some (some (Val.bool false))
        ∧ Seat.pollList ⟨0, RTy.bool⟩ 3 s1
            = some ([some (Val.bool true), some (Val.bool false), none], s2)
        ∧ Seat.get s2 ⟨0, RTy.bool⟩ = some (some (Val.bool false)) :=
  c1_bind_handle_poll_fifo_get_latest kbdEnv (applyReqs [("jump", RTy.bool)] Session.new)
    ⟨"kbd", "w"⟩ 0 ⟨0, "jump", RTy.bool⟩ (by decide) (by decide) 1 (by decide)
    [Val.bool true, Val.bool false] (by decide) (by decide) Seat.new (by decide)

/-! ### Claim C7 lemmas -/

theorem length_le_foldr_max (f : Filter) (l : List Filter) (hf : f ∈ l) :
    f.targets.length ≤ l.foldr (fun f m => max f.targets.length m) 0 := by
  induction l with
  | nil => cases hf
  | cons g l ih =>
    rcases List.mem_cons.mp hf with rfl | h
    · exact le_max_left _ _
    · exact le_trans (ih h) (le_max_right _ _)

theorem le_branchBound {b : Bindings} {f : Filter} (hf : f ∈ b.filters) :
    f.targets.length ≤ branchBound b :=
  length_le_foldr_max f b.filters hf

theorem le_foldr_max {l : List Nat} {x : Nat} (hx : x ∈ l) : x ≤ l.foldr max 0 := by
  induction l with
  | nil => cases hx
  | cons y ys ih =>
    rcases List.mem_cons.mp hx with rfl | h
    · exact le_max_left _ _
    · exact le_trans (ih h) (le_max_right _ _)

theorem wlMeasure_cons (b : Bindings) (rank : Nat → Nat) (a : Nat) (wl : List Nat) :
    wlMeasure b rank (a :: wl) = (branchBound b + 1) ^ rank a + wlMeasure b rank wl := by
  simp [wlMeasure]

theorem wlMeasure_append (b : Bindings) (rank : Nat → Nat) (l1 l2 : List Nat) :
    wlMeasure b rank (l1 ++ l2) = wlMeasure b rank l1 + wlMeasure b rank l2 := by
  simp [wlMeasure]

theorem wlMeasure_reverse (b : Bindings) (rank : Nat → Nat) (l : List Nat) :
    wlMeasure b rank l.reverse = wlMeasure b rank l := by
  simp [wlMeasure, List.map_reverse, List.sum_reverse]

theorem mem_of_getElem?_some {α : Type} {l : List α} {n : Nat} {x : α}
    (h : l[n]? = some x) : x ∈ l := by
  induction l generalizing n with
  | nil => simp at h
  | cons y ys ih =>
    cases n with
    | zero =>
      rw [List.getElem?_cons_zero] at h
      cases h
      exact List.mem_cons_self _ _
    | succ n =>
      rw [List.getElem?_cons_succ] at h
      exact List.mem_cons_of_mem _ (ih h)

theorem targets_measure_lt {b : Bindings} {rank : Nat → Nat} (h : RankedBy b rank)
    {a idx : Nat} {f : Filter}
    (hfsa : alistGet a b.filter_source_actions = some idx)
    (hfi : b.filters[idx]? = some f) :
    wlMeasure b rank f.targets + 1 ≤ (branchBound b + 1) ^ rank a := by
  by_cases hz : rank a = 0
  · have hemp : f.targets = [] := by
      cases ht : f.targets with
      | nil => rfl
      | cons t ts =>
        have := h a idx f hfsa hfi t (by rw [ht]; exact List.mem_cons_self t ts)
        omega
    simp [hemp, wlMeasure, hz]
  · obtain ⟨k, hk⟩ : ∃ k, rank a = k + 1 := ⟨rank a - 1, by omega⟩
    have hbound : ∀ x ∈ f.targets.map fun t => (branchBound b + 1) ^ rank t,
        x ≤ (branchBound b + 1) ^ k := by
      intro x hx
      obtain ⟨t, ht, rfl⟩ := List.mem_map.mp hx
      have hlt := h a idx f hfsa hfi t ht
      exact Nat.pow_le_pow_right (by omega) (by omega)
    have hsum := List.sum_le_card_nsmul _ _ hbound
    rw [List.length_map, smul_eq_mul] at hsum
    have hlen : f.targets.length ≤ branchBound b :=
      le_branchBound (mem_of_getElem?_some hfi)
    have h1 : wlMeasure b rank f.targets ≤ branchBound b * (branchBound b + 1) ^ k :=
      le_trans hsum (Nat.mul_le_mul_right _ hlen)
    have h2 : 1 ≤ (branchBound b + 1) ^ k := Nat.one_le_pow _ _ (by omega)
    have h3 : branchBound b * (branchBound b + 1) ^ k + (branchBound b + 1) ^ k
        = (branchBound b + 1) ^ (k + 1) := by
      rw [pow_succ]
      ring
    rw [hk]
    omega

theorem propagate_fuel_sufficient {b : Bindings} {rank : Nat → Nat} (h : RankedBy b rank) :
    ∀ (fuel : Nat) (wl : List Nat) (s : Seat), wlMeasure b rank wl < fuel →
      b.propagate fuel wl s ≠ .fuelOut := by
  intro fuel
  induction fuel with
  | zero => intro wl s hm; omega
  | succ fuel ih =>
    intro wl s hm
    cases wl with
    | nil => simp [Bindings.propagate]
    | cons a rest =>
      rw [wlMeasure_cons] at hm
      have hpow : 1 ≤ (branchBound b + 1) ^ rank a := Nat.one_le_pow _ _ (by omega)
      cases hfsa : alistGet a b.filter_source_actions with
      | none =>
        simp only [Bindings.propagate, hfsa]
        exact ih rest s (by omega)
      | some idx =>
        cases hfi : b.filters[idx]? with
        | none => simp [Bindings.propagate, hfsa, hfi]
        | some f =>
          cases happ : f.apply s with
          | none => simp [Bindings.propagate, hfsa, hfi, happ]
          | some s' =>
            simp only [Bindings.propagate, hfsa, hfi, happ]
            refine ih _ s' ?_
            have htb := targets_measure_lt h hfsa hfi
            have hsplit : wlMeasure b rank (f.targets.reverse ++ rest)
                = wlMeasure b rank f.targets + wlMeasure b rank rest := by
              rw [wlMeasure_append, wlMeasure_reverse]
            omega

theorem propagate_stable {b : Bindings} :
    ∀ (fuel : Nat) (wl : List Nat) (s : Seat), b.propagate fuel wl s ≠ .fuelOut →
      b.propagate (fuel + 1) wl s = b.propagate fuel wl s := by
  intro fuel
  induction fuel with
  | zero =>
    intro wl s h
    cases wl with
    | nil => rfl
    | cons a rest => simp [Bindings.propagate] at h
  | succ fuel ih =>
    intro wl s h
    cases wl with
    | nil => rfl
    | cons a rest =>
      cases hfsa : alistGet a b.filter_source_actions with
      | none =>
        simp only [Bindings.propagate, hfsa] at h ⊢
        exact ih rest s h
      | some idx =>
        cases hfi : b.filters[idx]? with
        | none => simp [Bindings.propagate, hfsa, hfi]
        | some f =>
          cases happ : f.apply s with
          | none => simp [Bindings.propagate, hfsa, hfi, happ]
          | some s' =>
            simp only [Bindings.propagate, hfsa, hfi, happ] at h ⊢
            exact ih _ s' h

theorem propagate_stable_ge {b : Bindings} {n : Nat} {wl : List Nat} {s : Seat}
    (h : b.propagate n wl s ≠ .fuelOut) :
    ∀ m, n ≤ m → b.propagate m wl s = b.propagate n wl s := by
  intro m hm
  induction m, hm using Nat.le_induction with
  | base => rfl
  | succ m hm ih =>
    rw [propagate_stable m wl s (by rw [ih]; exact h), ih]

theorem handleActions_no_fuelOut {b : Bindings} {rank : Nat → Nat} (h : RankedBy b rank)
    (v : Val) :
    ∀ (acts : List Nat) (s : Seat) (m : Nat),
      (∀ a ∈ acts, wlMeasure b rank [a] < m) →
      b.handleActions m v acts s ≠ .fuelOut := by
  intro acts
  induction acts with
  | nil => intro s m _; simp [Bindings.handleActions]
  | cons a rest ih =>
    intro s m hm
    cases hp : Seat.push s a v with
    | mk s' eo =>
      cases eo with
      | some e0 => simp [Bindings.handleActions, hp]
      | none =>
        cases hprop : b.propagate m [a] s' with
        | fuelOut =>
          exact absurd hprop
            (propagate_fuel_sufficient h m [a] s' (hm a (List.mem_cons_self a rest)))
        | panic => simp [Bindings.handleActions, hp, hprop]
        | ok s'' =>
          simp only [Bindings.handleActions, hp, hprop]
          exact ih s'' m (fun x hx => hm x (List.mem_cons_of_mem a hx))

theorem handle_no_fuelOut {b : Bindings} {rank : Nat → Nat} (h : RankedBy b rank)
    (E : KindEnv) (i : Inp) (v : Val) (s : Seat) (m : Nat)
    (hm : (((b.boundActions i).map fun a => wlMeasure b rank [a]).foldr max 0) < m) :
    b.handle E m i v s ≠ .fuelOut := by
  by_cases h1 : v.ty ≠ visitTy E i
  · simp [Bindings.handle, h1]
  · cases h2 : alistGet i.kind b.actions with
    | none => simp [Bindings.handle, h1, h2]
    | some tbl =>
      cases h3 : alistGet i tbl with
      | none => simp [Bindings.handle, h1, h2, h3]
      | some acts =>
        have hacts : b.boundActions i = acts := by
          simp [Bindings.boundActions, h2, h3]
        have hno : b.handleActions m v acts s ≠ .fuelOut := by
          refine handleActions_no_fuelOut h v acts s m ?_
          intro a ha
          have hmem : wlMeasure b rank [a]
              ∈ (b.boundActions i).map fun a => wlMeasure b rank [a] := by
            rw [hacts]
            exact List.mem_map_of_mem _ ha
          exact lt_of_le_of_lt (le_foldr_max hmem) hm
        cases h4 : b.handleActions m v acts s with
        | fuelOut => exact absurd h4 hno
        | panic => simp [Bindings.handle, h1, h2, h3, h4]
        | ok s' => simp [Bindings.handle, h1, h2, h3, h4]

/-! ### Claim C7 -/

/-- C7: propagation from a changed action is the stated work-list
algorithm — seed the list with the changed id; while non-empty, pop an
id, look up its (at most one) consuming filter in the reverse index,
run that filter's `apply`, and push that filter's targets back onto the
list — and for every `Bindings` whose filter source-to-target
dependency graph is acyclic the loop terminates (some fuel suffices and
the result is stable for all larger fuel), hence every `handle` call
terminates as well. -/
theorem c7_propagate_worklist_terminates_if_acyclic (b : Bindings) (hacyc : Acyclic b) :
    (∀ (fuel : Nat) (s : Seat), b.propagate fuel [] s = .ok s)
    ∧ (∀ (fuel : Nat) (a : Nat) (rest : List Nat) (s : Seat),
        b.propagate (fuel + 1) (a :: rest) s
          = match alistGet a b.filter_source_actions with
            | none => b.propagate fuel rest s
            | some idx =>
              match b.filters[idx]? with
              | none => .panic
              | some f =>
                match f.apply s with
                | none => .panic
                | some s' => b.propagate fuel (f.targets.reverse ++ rest) s')
    ∧ (∀ (a : Nat) (s : Seat), ∃ n, b.propagate n [a] s ≠ .fuelOut
        ∧ ∀ m, n ≤ m → b.propagate m [a] s = b.propagate n [a] s)
    ∧ (∀ (E : KindEnv) (i : Inp) (v : Val) (s : Seat),
        ∃ n, ∀ m, n ≤ m → b.handle E m i v s ≠ .fuelOut) := by
  obtain ⟨rank, hrank⟩ := hacyc
  refine ⟨?_, ?_, ?_, ?_⟩
  · intro fuel s
    cases fuel <;> rfl
  · intro fuel a rest s
    rfl
  · intro a s
    refine ⟨wlMeasure b rank [a] + 1, ?_, ?_⟩
    · exact propagate_fuel_sufficient hrank _ _ s (by omega)
    · exact propagate_stable_ge (propagate_fuel_sufficient hrank _ _ s (by omega))
  · intro E i v s
    refine ⟨(((b.boundActions i).map fun a => wlMeasure b rank [a]).foldr max 0) + 1, ?_⟩
    intro m hm
    exact handle_no_fuelOut hrank E i v s m (by omega)

/-- Witness for C7 on concrete acyclic bindings. -/
theorem c7_witness :
    ∃ n, Bindings.new.propagate n [0] Seat.new ≠ .fuelOut
      ∧ ∀ m, n ≤ m →
          Bindings.new.propagate m [0] Seat.new = Bindings.new.propagate n [0] Seat.new :=
  (c7_propagate_worklist_terminates_if_acyclic Bindings.new
    ⟨fun _ => 0, by
      intro a idx f h1 h2 t ht
      simp [alistGet, Bindings.new] at h1⟩).2.2.1 0 Seat.new

/-! ### Claim C6 -/

/-- C6: `DPad::apply` reads the current seat state of its four boolean
sources (a never-pushed source reads as `false`) and pushes to the
target the vector `(right - left, up - down)`.  With sources auto-named
`move.up`/`move.left`/`move.down`/`move.right` (ids 1..4) for target
`move` (id 0): after pushing `up = true` and `left = false`, reading
`move` yields `(0, 1)`; after additionally pushing `right = true` it
yields `(1, 1)`. -/
theorem c6_dpad_apply_difference_vector :
    (∀ (dp : DPad) (s : Seat) (bu bl bd br : Bool),
      Seat.getBool s dp.up = some bu → Seat.getBool s dp.left = some bl →
      Seat.getBool s dp.down = some bd → Seat.getBool s dp.right = some br →
      (Seat.push s dp.target.id (.vec2 (b2i br - b2i bl) (b2i bu - b2i bd))).2 = none →
      DPad.apply dp s
        = some ((Seat.push s dp.target.id (.vec2 (b2i br - b2i bl) (b2i bu - b2i bd))).1))
    ∧ DPad.load ((DPad.create_source_actions (applyReqs [("move", RTy.vec2)] Session.new)
          ⟨"dpad", ["move"]⟩).1) ⟨"dpad", ["move"]⟩
        = some (.ok ⟨⟨0, .vec2⟩, ⟨1, .bool⟩, ⟨2, .bool⟩, ⟨3, .bool⟩, ⟨4, .bool⟩⟩)
    ∧ ((DPad.apply ⟨⟨0, .vec2⟩, ⟨1, .bool⟩, ⟨2, .bool⟩, ⟨3, .bool⟩, ⟨4, .bool⟩⟩
          (((Seat.new.push 1 (Val.bool true)).1.push 2 (Val.bool false)).1)).map
        fun s => Seat.get s ⟨0, RTy.vec2⟩) = some (some (some (Val.vec2 0 1)))
    ∧ ((DPad.apply ⟨⟨0, .vec2⟩, ⟨1, .bool⟩, ⟨2, .bool⟩, ⟨3, .bool⟩, ⟨4, .bool⟩⟩
          (((Seat.new.push 1 (Val.bool true)).1.push 2 (Val.bool false)).1)).bind
        fun s1 => (DPad.apply ⟨⟨0, .vec2⟩, ⟨1, .bool⟩, ⟨2, .bool⟩, ⟨3, .bool⟩, ⟨4, .bool⟩⟩
          ((s1.push 4 (Val.bool true)).1)).map
            fun s2 => Seat.get s2 ⟨0, RTy.vec2⟩) = some (some (some (Val.vec2 1 1))) := by
  refine ⟨?_, by rfl, by decide, by decide⟩
  intro dp s bu bl bd br hu hl hd2 hr hp
  cases hpp : Seat.push s dp.target.id (.vec2 (b2i br - b2i bl) (b2i bu - b2i bd)) with
  | mk s' eo =>
    rw [hpp] at hp
    dsimp only at hp
    subst hp
    simp only [DPad.apply, hr, hl, hu, hd2]
    simp [hpp]

/-- Witness for C6's general part at a concrete filter and seat. -/
theorem c6_witness :
    DPad.apply ⟨⟨0, .vec2⟩, ⟨1, .bool⟩, ⟨2, .bool⟩, ⟨3, .bool⟩, ⟨4, .bool⟩⟩
        (((Seat.new.push 1 (Val.bool true)).1.push 2 (Val.bool false)).1)
      = some ((Seat.push (((Seat.new.push 1 (Val.bool true)).1.push 2 (Val.bool false)).1)
          0 (.vec2 (b2i false - b2i false) (b2i true - b2i false))).1) :=
  c6_dpad_apply_difference_vector.1 ⟨⟨0, .vec2⟩, ⟨1, .bool⟩, ⟨2, .bool⟩, ⟨3, .bool⟩, ⟨4, .bool⟩⟩
    (((Seat.new.push 1 (Val.bool true)).1.push 2 (Val.bool false)).1)
    true false false false (by decide) (by decide) (by decide) (by decide) (by decide)

/-! ### Claim C8 lemmas: sorting -/

theorem insertRow_perm (x : String × List String) (l : List (String × List String)) :
    (insertRow x l).Perm (x :: l) := by
  induction l with
  | nil => exact List.Perm.refl _
  | cons y ys ih =>
    by_cases h : x.1 ≤ y.1
    · simp only [insertRow, if_pos h]
      exact List.Perm.refl _
    · simp only [insertRow, if_neg h]
      exact (ih.cons y).trans (List.Perm.swap x y ys)

theorem mem_insertRow {x y : String × List String} {l : List (String × List String)}
    (h : y ∈ insertRow x l) : y = x ∨ y ∈ l := by
  have := (insertRow_perm x l).mem_iff.mp h
  simpa using this

theorem insertRow_sorted {x : String × List String} {l : List (String × List String)}
    (h : l.Pairwise (fun p q => p.1 ≤ q.1)) :
    (insertRow x l).Pairwise (fun p q => p.1 ≤ q.1) := by
  induction l with
  | nil => simp [insertRow]
  | cons y ys ih =>
    rcases List.pairwise_cons.mp h with ⟨hy, hys⟩
    by_cases hle : x.1 ≤ y.1
    · simp only [insertRow, if_pos hle]
      refine List.pairwise_cons.mpr ⟨?_, h⟩
      intro z hz
      rcases List.mem_cons.mp hz with rfl | hz
      · exact hle
      · exact le_trans hle (hy z hz)
    · simp only [insertRow, if_neg hle]
      refine List.pairwise_cons.mpr ⟨?_, ih hys⟩
      intro z hz
      rcases mem_insertRow hz with rfl | hz
      · exact le_of_not_le hle
      · exact hy z hz

theorem sortRows_perm (l : List (String × List String)) : (sortRows l).Perm l := by
  induction l with
  | nil => exact List.Perm.refl _
  | cons x xs ih => exact (insertRow_perm x (sortRows xs)).trans (ih.cons x)

theorem sortRows_sorted (l : List (String × List String)) :
    (sortRows l).Pairwise (fun p q => p.1 ≤ q.1) := by
  induction l with
  | nil => simp [sortRows]
  | cons x xs ih => exact insertRow_sorted ih

/-! ### Claim C8 lemmas: flattened pair multisets -/

theorem flattenRows_cons (p : String × List String) (l : List (String × List String)) :
    flattenRows (p :: l) = p.2.map (fun s => (p.1, s)) ++ flattenRows l := by
  simp [flattenRows]

theorem flattenTbl_cons (p : Inp × List Nat) (l : InputBindings) :
    flattenTbl (p :: l) = p.2.map (fun a => (p.1, a)) ++ flattenTbl l := by
  simp [flattenTbl]

theorem flattenRows_perm {l1 l2 : List (String × List String)} (h : l1.Perm l2) :
    (flattenRows l1).Perm (flattenRows l2) := by
  induction h with
  | nil => exact List.Perm.refl _
  | cons x h ih =>
    simp only [flattenRows_cons]
    exact List.Perm.append_left _ ih
  | swap x y l =>
    simp only [flattenRows_cons]
    rw [← List.append_assoc, ← List.append_assoc]
    exact List.Perm.append_right _ List.perm_append_comm
  | trans h1 h2 ih1 ih2 => exact ih1.trans ih2

theorem flattenRows_bucketPush (n s0 : String) :
    ∀ rows, (flattenRows (bucketPush n s0 rows)).Perm ((n, s0) :: flattenRows rows) := by
  intro rows
  induction rows with
  | nil =>
    simp only [bucketPush, flattenRows_cons]
    exact List.Perm.refl _
  | cons p rest ih =>
    obtain ⟨m, ss⟩ := p
    by_cases h : m = n
    · subst h
      have hb : bucketPush m s0 ((m, ss) :: rest) = (m, ss ++ [s0]) :: rest := by
        simp [bucketPush]
      rw [hb, flattenRows_cons, flattenRows_cons, List.map_append]
      dsimp only
      simp only [List.map_cons, List.map_nil, List.append_assoc, List.singleton_append]
      exact List.perm_middle
    · have hb : bucketPush n s0 ((m, ss) :: rest) = (m, ss) :: bucketPush n s0 rest := by
        simp [bucketPush, h]
      rw [hb, flattenRows_cons, flattenRows_cons]
      exact (List.Perm.append_left _ ih).trans List.perm_middle

theorem flattenTbl_entryPush (i : Inp) (a : Nat) :
    ∀ tbl : InputBindings, (flattenTbl (entryPush i a tbl)).Perm ((i, a) :: flattenTbl tbl) := by
  intro tbl
  induction tbl with
  | nil =>
    simp only [entryPush, flattenTbl_cons]
    exact List.Perm.refl _
  | cons p rest ih =>
    obtain ⟨j, as⟩ := p
    by_cases h : j = i
    · subst h
      have hb : entryPush j a ((j, as) :: rest) = (j, as ++ [a]) :: rest := by
        simp [entryPush]
      rw [hb, flattenTbl_cons, flattenTbl_cons, List.map_append]
      dsimp only
      simp only [List.map_cons, List.map_nil, List.append_assoc, List.singleton_append]
      exact List.perm_middle
    · have hb : entryPush i a ((j, as) :: rest) = (j, as) :: entryPush i a rest := by
        simp [entryPush, h]
      rw [hb, flattenTbl_cons, flattenTbl_cons]
      exact (List.Perm.append_left _ ih).trans List.perm_middle

theorem mem_keys_entryPush {x i : Inp} {a : Nat} :
    ∀ {tbl : InputBindings}, x ∈ (entryPush i a tbl).map (·.1) → x = i ∨ x ∈ tbl.map (·.1) := by
  intro tbl
  induction tbl with
  | nil =>
    intro h
    simp [entryPush] at h
    exact Or.inl h
  | cons p rest ih =>
    intro h
    obtain ⟨j, as⟩ := p
    by_cases hj : j = i
    · subst hj
      have hb : entryPush j a ((j, as) :: rest) = (j, as ++ [a]) :: rest := by
        simp [entryPush]
      rw [hb] at h
      refine Or.inr ?_
      simpa using h
    · have hb : entryPush i a ((j, as) :: rest) = (j, as) :: entryPush i a rest := by
        simp [entryPush, hj]
      rw [hb, List.map_cons] at h
      rcases List.mem_cons.mp h with rfl | h
      · exact Or.inr (by simp)
      · rcases ih h with rfl | h
        · exact Or.inl rfl
        · exact Or.inr (by simp [h])

theorem entryPush_keys_nodup {i : Inp} {a : Nat} :
    ∀ {tbl : InputBindings}, (tbl.map (·.1)).Nodup → ((entryPush i a tbl).map (·.1)).Nodup := by
  intro tbl
  induction tbl with
  | nil =>
    intro _
    simp [entryPush]
  | cons p rest ih =>
    intro h
    obtain ⟨j, as⟩ := p
    rw [List.map_cons] at h
    rcases List.nodup_cons.mp h with ⟨hj, hrest⟩
    by_cases hji : j = i
    · subst hji
      have hb : entryPush j a ((j, as) :: rest) = (j, as ++ [a]) :: rest := by
        simp [entryPush]
      rw [hb, List.map_cons]
      exact List.nodup_cons.mpr ⟨hj, hrest⟩
    · have hb : entryPush i a ((j, as) :: rest) = (j, as) :: entryPush i a rest := by
        simp [entryPush, hji]
      rw [hb, List.map_cons]
      refine List.nodup_cons.mpr ⟨?_, ih hrest⟩
      intro hmem
      rcases mem_keys_entryPush hmem with rfl | hmem
      · exact hji rfl
      · exact hj hmem

theorem count_map_pair (j i : Inp) (a : Nat) (as : List Nat) :
    (as.map fun x => (j, x)).count (i, a) = if j = i then as.count a else 0 := by
  induction as with
  | nil => simp
  | cons x xs ih =>
    by_cases h : j = i
    · subst h
      simp only [List.map_cons, List.count_cons, ih, if_pos rfl]
      by_cases hx : x = a
      · simp [hx]
      · simp [hx]
    · simp only [List.map_cons, List.count_cons, ih, if_neg h]
      simp [h]

theorem mem_flattenTbl_keys {i : Inp} {a : Nat} {tbl : InputBindings}
    (h : (i, a) ∈ flattenTbl tbl) : i ∈ tbl.map (·.1) := by
  rw [flattenTbl, List.mem_flatMap] at h
  obtain ⟨p, hp, hmem⟩ := h
  obtain ⟨x, hx, hpair⟩ := List.mem_map.mp hmem
  injection hpair with h1 h2
  exact h1 ▸ List.mem_map_of_mem _ hp

theorem count_flatten :
    ∀ {tbl : InputBindings}, (tbl.map (·.1)).Nodup → ∀ (i : Inp) (a : Nat),
      ((alistGet i tbl).getD []).count a = (flattenTbl tbl).count (i, a) := by
  intro tbl
  induction tbl with
  | nil =>
    intro _ i a
    simp [alistGet, flattenTbl]
  | cons p rest ih =>
    intro h i a
    obtain ⟨j, as⟩ := p
    rw [List.map_cons] at h
    rcases List.nodup_cons.mp h with ⟨hj, hrest⟩
    rw [alistGet_cons, flattenTbl_cons, List.count_append, count_map_pair]
    by_cases hji : j = i
    · subst hji
      simp only [if_pos rfl]
      have hzero : (flattenTbl rest).count (j, a) = 0 := by
        rw [List.count_eq_zero]
        intro hmem
        exact hj (mem_flattenTbl_keys hmem)
      simp [hzero]
    · simp only [if_neg hji]
      rw [ih hrest]
      omega

theorem alistGet_eq_none {κ β : Type} [DecidableEq κ] {k : κ} {l : List (κ × β)}
    (h : k ∉ l.map (·.1)) : alistGet k l = none := by
  rw [alistGet, Option.map_eq_none', List.find?_eq_none]
  intro p hp
  simp only [decide_eq_true_eq]
  intro hk
  exact h (hk ▸ List.mem_map_of_mem _ hp)

theorem alistGet_of_mem_nodup {κ β : Type} [DecidableEq κ] {k : κ} {v : β} :
    ∀ {l : List (κ × β)}, (k, v) ∈ l → (l.map (·.1)).Nodup → alistGet k l = some v := by
  intro l
  induction l with
  | nil => intro hm _; cases hm
  | cons p rest ih =>
    intro hm hnd
    rw [List.map_cons] at hnd
    rcases List.nodup_cons.mp hnd with ⟨hp, hrest⟩
    obtain ⟨k', v'⟩ := p
    rcases List.mem_cons.mp hm with heq | hm
    · injection heq with h1 h2
      subst h1
      subst h2
      rw [alistGet_cons, if_pos rfl]
    · rw [alistGet_cons]
      have hk : k' ≠ k := by
        intro hk
        apply hp
        rw [hk]
        exact List.mem_map.mpr ⟨(k, v), hm, rfl⟩
      rw [if_neg hk]
      exact ih hm hrest

theorem mem_keys_exists {κ β : Type} [DecidableEq κ] {k : κ} {l : List (κ × β)}
    (h : k ∈ l.map (·.1)) : ∃ v, (k, v) ∈ l := by
  obtain ⟨p, hp, hk⟩ := List.mem_map.mp h
  exact ⟨p.2, by rwa [show (k, p.2) = p from by rw [← hk]]⟩

/-! ### Claim C8 lemmas: the save side -/

theorem saveActs_ok (E : KindEnv) (sess : Session) (i : Inp) :
    ∀ (as : List Nat) (acc : List (String × List String)),
      (∀ a ∈ as, ∃ d, Session.get1 sess a = some d) →
      ∃ acc', saveActs E sess i acc as = some acc'
        ∧ (flattenRows acc').Perm
            ((as.map fun a => pairMap E sess (i, a)) ++ flattenRows acc) := by
  intro as
  induction as with
  | nil =>
    intro acc _
    refine ⟨acc, rfl, ?_⟩
    rw [List.map_nil, List.nil_append]
  | cons a rest ih =>
    intro acc hmem
    obtain ⟨d, hd⟩ := hmem a (List.mem_cons_self a rest)
    have hname : Session.action_name sess a = some d.name := by
      rw [Session.action_name, hd]
      rfl
    obtain ⟨acc', hrun, hperm⟩ := ih (bucketPush d.name ((E i.kind).toStr i.key) acc)
      (fun x hx => hmem x (List.mem_cons_of_mem a hx))
    refine ⟨acc', ?_, ?_⟩
    · simp only [saveActs, hname, hrun]
    · have hpm : pairMap E sess (i, a) = (d.name, (E i.kind).toStr i.key) := by
        simp [pairMap, hname]
      rw [List.map_cons, hpm, List.cons_append]
      exact hperm.trans ((List.Perm.append_left _
        (flattenRows_bucketPush d.name ((E i.kind).toStr i.key) acc)).trans List.perm_middle)

theorem saveRows_ok (E : KindEnv) (sess : Session) :
    ∀ (tbl : InputBindings) (acc : List (String × List String)),
      (∀ p ∈ tbl, ∀ a ∈ p.2, ∃ d, Session.get1 sess a = some d) →
      ∃ rows, saveRows E sess acc tbl = some rows
        ∧ (flattenRows rows).Perm
            (((flattenTbl tbl).map (pairMap E sess)) ++ flattenRows acc) := by
  intro tbl
  induction tbl with
  | nil =>
    intro acc _
    refine ⟨acc, rfl, ?_⟩
    rw [show flattenTbl [] = [] from rfl, List.map_nil, List.nil_append]
  | cons p rest ih =>
    intro acc hmem
    obtain ⟨i, as⟩ := p
    obtain ⟨acc', hrun1, hperm1⟩ := saveActs_ok E sess i as acc
      (fun a ha => hmem (i, as) (List.mem_cons_self _ _) a ha)
    obtain ⟨rows, hrun2, hperm2⟩ := ih acc'
      (fun q hq a ha => hmem q (List.mem_cons_of_mem _ hq) a ha)
    refine ⟨rows, ?_, ?_⟩
    · simp only [saveRows, hrun1, hrun2]
    · rw [flattenTbl_cons, List.map_append]
      have hmm : (List.map (fun a => (i, a)) as).map (pairMap E sess)
          = as.map fun a => pairMap E sess (i, a) := by
        rw [List.map_map]
        rfl
      rw [hmm]
      have h3 := hperm2.trans (List.Perm.append_left _ hperm1)
      refine h3.trans ?_
      rw [← List.append_assoc]
      exact List.Perm.append_right _ List.perm_append_comm

theorem saveActs_vals_ne_nil (E : KindEnv) (sess : Session) (i : Inp) :
    ∀ (as : List Nat) (acc acc' : List (String × List String)),
      saveActs E sess i acc as = some acc' →
      (∀ p ∈ acc, p.2 ≠ []) → ∀ p ∈ acc', p.2 ≠ [] := by
  intro as
  induction as with
  | nil =>
    intro acc acc' hrun hacc
    cases hrun
    exact hacc
  | cons a rest ih =>
    intro acc acc' hrun hacc
    cases hn : Session.action_name sess a with
    | none => rw [saveActs, hn] at hrun; cases hrun
    | some n =>
      rw [saveActs, hn] at hrun
      refine ih _ _ hrun ?_
      intro p hp
      clear hrun
      induction acc with
      | nil =>
        simp [bucketPush] at hp
        rw [hp]
        simp
      | cons q qs ihq =>
        obtain ⟨m, ss⟩ := q
        by_cases hm : m = n
        · subst hm
          have hb : bucketPush m ((E i.kind).toStr i.key) ((m, ss) :: qs)
              = (m, ss ++ [(E i.kind).toStr i.key]) :: qs := by
            simp [bucketPush]
          rw [hb] at hp
          rcases List.mem_cons.mp hp with rfl | hp
          · simp
          · exact hacc p (List.mem_cons_of_mem _ hp)
        · have hb : bucketPush n ((E i.kind).toStr i.key) ((m, ss) :: qs)
              = (m, ss) :: bucketPush n ((E i.kind).toStr i.key) qs := by
            simp [bucketPush, hm]
          rw [hb] at hp
          rcases List.mem_cons.mp hp with rfl | hp
          · exact hacc _ (List.mem_cons_self _ _)
          · exact ihq (fun q hq => hacc q (List.mem_cons_of_mem _ hq)) hp

theorem saveRows_vals_ne_nil (E : KindEnv) (sess : Session) :
    ∀ (tbl : InputBindings) (acc rows : List (String × List String)),
      saveRows E sess acc tbl = some rows →
      (∀ p ∈ acc, p.2 ≠ []) → ∀ p ∈ rows, p.2 ≠ [] := by
  intro tbl
  induction tbl with
  | nil =>
    intro acc rows hrun hacc
    cases hrun
    exact hacc
  | cons q rest ih =>
    intro acc rows hrun hacc
    obtain ⟨i, as⟩ := q
    cases hsa : saveActs E sess i acc as with
    | none => rw [saveRows, hsa] at hrun; cases hrun
    | some acc' =>
      rw [saveRows, hsa] at hrun
      exact ih _ _ hrun (saveActs_vals_ne_nil E sess i as acc acc' hsa hacc)

/-! ### Claim C8 lemmas: name and candidate resolution -/

theorem action_id_name {sess : Session} {a : Nat} {d : ActionDefinition}
    (hWF : Session.WF sess) (hd : Session.get1 sess a = some d) :
    Session.action_id sess d.name = some a := by
  have hmem := List.mem_of_find?_eq_some hd
  have hid : d.id = a := by simpa using List.find?_some hd
  cases hf : Session.get2 sess d.name with
  | none =>
    rw [Session.get2, List.find?_eq_none] at hf
    exact absurd (by simp) (hf d hmem)
  | some d' =>
    have hmem' := List.mem_of_find?_eq_some hf
    have hname : d'.name = d.name := by simpa using List.find?_some hf
    have hdd : d' = d := List.inj_on_of_nodup_map hWF.2 hmem' hmem hname
    rw [Session.action_id, hf, hdd]
    simp [hid]

theorem find?_first_type {f : String → RTy} {t : RTy} {key : String} :
    ∀ {l : List String}, key ∈ l → f key = t →
      l.Pairwise (fun a b => f a ≠ f b) →
      l.find? (fun x => f x = t) = some key := by
  intro l
  induction l with
  | nil => intro h _ _; cases h
  | cons x xs ih =>
    intro hmem hkey hpair
    rcases List.pairwise_cons.mp hpair with ⟨hx, hxs⟩
    by_cases hxt : f x = t
    · have hxk : x = key := by
        rcases List.mem_cons.mp hmem with rfl | hmem'
        · rfl
        · exact absurd (hkey ▸ hxt) (hx key hmem')
      subst hxk
      simp [List.find?_cons, hxt]
    · have hmem' : key ∈ xs := by
        rcases List.mem_cons.mp hmem with rfl | hmem'
        · exact absurd hkey hxt
        · exact hmem'
      rw [List.find?_cons_of_neg _ (by simpa using hxt)]
      exact ih hmem' hkey hxs

theorem pairBack_pairMap {E : KindEnv} {sess : Session} {k : String} {i : Inp} {a : Nat}
    {d : ActionDefinition} (hWF : Session.WF sess)
    (hk : i.kind = k) (hic : InputContract E i)
    (hd : Session.get1 sess a = some d) (hty : d.ty = visitTy E i) :
    pairBack E sess k (pairMap E sess (i, a)) = (i, a)
    ∧ Resolves E sess k (pairMap E sess (i, a)) := by
  subst hk
  have hname : Session.action_name sess a = some d.name := by
    rw [Session.action_name, hd]
    rfl
  have hpm : pairMap E sess (i, a) = (d.name, (E i.kind).toStr i.key) := by
    simp [pairMap, hname]
  have haid : Session.action_id sess d.name = some a := action_id_name hWF hd
  have hfind : ((E i.kind).fromStr ((E i.kind).toStr i.key)).find?
      (fun x => (E i.kind).visitTy x = d.ty) = some i.key :=
    find?_first_type hic.1 hty.symm hic.2
  have hpb : pairBack E sess i.kind (d.name, (E i.kind).toStr i.key) = (⟨i.kind, i.key⟩, a) := by
    simp [pairBack, haid, hd, hfind]
  constructor
  · rw [hpm, hpb]
  · rw [hpm]
    exact ⟨a, d, i.key, haid, hd, List.ne_nil_of_mem hic.1, hfind, hpb⟩

/-! ### Claim C8 lemmas: the load side -/

theorem pickInput_found (E : KindEnv) (sess : Session) (k : String) (a : Nat)
    (d : ActionDefinition) (hd : Session.get1 sess a = some d) :
    ∀ (keys : List String) (exp : List String) (key0 : String),
      keys.find? (fun x => (E k).visitTy x = d.ty) = some key0 →
      ∃ exp', pickInput E sess k a keys exp = some (some ⟨k, key0⟩, exp') := by
  intro keys
  induction keys with
  | nil => intro exp key0 h; cases h
  | cons key rest ih =>
    intro exp key0 hfind
    have hct : Session.check_type E sess a ⟨k, key⟩
        = some (if d.ty = (E k).visitTy key then Except.ok ()
            else Except.error ⟨((E k).visitTy key).tyName, d.ty.tyName⟩) := by
      rw [Session.check_type, hd]
      rfl
    by_cases hm : (E k).visitTy key = d.ty
    · have hkk : key0 = key := by
        rw [List.find?_cons_of_pos _ (by simpa using hm)] at hfind
        cases hfind
        rfl
      subst hkk
      simp only [pickInput, hct, if_pos hm.symm]
      exact ⟨exp, rfl⟩
    · rw [List.find?_cons_of_neg _ (by simpa using hm)] at hfind
      have hcond : ¬(d.ty = (E k).visitTy key) := fun hh => hm hh.symm
      simp only [pickInput, hct, if_neg hcond]
      exact ih _ key0 hfind

theorem loadInputStrs_ok (E : KindEnv) (sess : Session) (k : String) (a : Nat)
    (name : String) :
    ∀ (strs : List String) (tbl : InputBindings) (errs : List LoadError),
      Session.action_id sess name = some a →
      (∀ s0 ∈ strs, Resolves E sess k (name, s0)) →
      ∃ tbl', loadInputStrs E sess k a name tbl errs strs = some (tbl', errs)
        ∧ (flattenTbl tbl').Perm
            ((strs.map fun s0 => pairBack E sess k (name, s0)) ++ flattenTbl tbl)
        ∧ ((tbl.map (·.1)).Nodup → (tbl'.map (·.1)).Nodup) := by
  intro strs
  induction strs with
  | nil =>
    intro tbl errs _ _
    refine ⟨tbl, rfl, ?_, fun h => h⟩
    rw [List.map_nil, List.nil_append]
  | cons s0 rest ih =>
    intro tbl errs ha hres
    obtain ⟨a', d, key, ha', hd', hne, hfind, hpb⟩ := hres s0 (List.mem_cons_self _ _)
    have haa : a' = a := by
      rw [ha] at ha'
      exact (Option.some.inj ha').symm
    rw [haa] at hd' hpb
    have hie : ((E k).fromStr s0).isEmpty = false := by
      cases hfs : (E k).fromStr s0 with
      | nil => exact absurd hfs hne
      | cons y ys => rfl
    obtain ⟨exp', hpick⟩ := pickInput_found E sess k a d hd' ((E k).fromStr s0) [] key hfind
    obtain ⟨tbl', hrun, hperm, hnd⟩ := ih (entryPush ⟨k, key⟩ a tbl) errs ha
      (fun x hx => hres x (List.mem_cons_of_mem _ hx))
    refine ⟨tbl', ?_, ?_, ?_⟩
    · simp only [loadInputStrs, hie, Bool.false_eq_true, if_false, hpick, hrun]
    · rw [List.map_cons, hpb, List.cons_append]
      exact hperm.trans ((List.Perm.append_left _
        (flattenTbl_entryPush ⟨k, key⟩ a tbl)).trans List.perm_middle)
    · intro h
      exact hnd (entryPush_keys_nodup h)

theorem loadRows_ok (E : KindEnv) (sess : Session) (k : String) :
    ∀ (rows : List (String × List String)) (tbl : InputBindings) (errs : List LoadError),
      (∀ p ∈ flattenRows rows, Resolves E sess k p) →
      (∀ p ∈ rows, p.2 ≠ []) →
      ∃ tbl', loadRows E sess k tbl errs rows = some (tbl', errs)
        ∧ (flattenTbl tbl').Perm
            (((flattenRows rows).map (pairBack E sess k)) ++ flattenTbl tbl)
        ∧ ((tbl.map (·.1)).Nodup → (tbl'.map (·.1)).Nodup) := by
  intro rows
  induction rows with
  | nil =>
    intro tbl errs _ _
    refine ⟨tbl, rfl, ?_, fun h => h⟩
    rw [show flattenRows [] = [] from rfl, List.map_nil, List.nil_append]
  | cons row rest ih =>
    intro tbl errs hres hnn
    obtain ⟨name, strs⟩ := row
    obtain ⟨s0, strs', hstrs⟩ :=
      List.exists_cons_of_ne_nil (hnn (name, strs) (List.mem_cons_self _ _))
    have hmem0 : (name, s0) ∈ flattenRows ((name, strs) :: rest) := by
      rw [flattenRows_cons, hstrs]
      exact List.mem_append_left _ (by simp)
    obtain ⟨a, d, key, ha, hd, -, -, -⟩ := hres (name, s0) hmem0
    have hres2 : ∀ x ∈ strs, Resolves E sess k (name, x) := by
      intro x hx
      refine hres (name, x) ?_
      rw [flattenRows_cons]
      exact List.mem_append_left _ (List.mem_map_of_mem _ hx)
    obtain ⟨tbl1, hrun1, hperm1, hnd1⟩ := loadInputStrs_ok E sess k a name strs tbl errs ha hres2
    have hres3 : ∀ p ∈ flattenRows rest, Resolves E sess k p := by
      intro p hp
      refine hres p ?_
      rw [flattenRows_cons]
      exact List.mem_append_right _ hp
    obtain ⟨tbl', hrun2, hperm2, hnd2⟩ := ih tbl1 errs hres3
      (fun p hp => hnn p (List.mem_cons_of_mem _ hp))
    refine ⟨tbl', ?_, ?_, fun h => hnd2 (hnd1 h)⟩
    · simp only [loadRows, ha, hrun1, hrun2]
    · rw [flattenRows_cons, List.map_append]
      have hmm : (strs.map fun s => (name, s)).map (pairBack E sess k)
          = strs.map fun s => pairBack E sess k (name, s) := by
        rw [List.map_map]
        rfl
      rw [hmm]
      have h3 := hperm2.trans (List.Perm.append_left _ hperm1)
      refine h3.trans ?_
      rw [← List.append_assoc]
      exact List.Perm.append_right _ List.perm_append_comm

theorem count_eq_of_perm_pair {l1 l2 : List (Inp × Nat)} (h : l1.Perm l2) (x : Inp × Nat) :
    l1.count x = l2.count x := by
  induction h with
  | nil => rfl
  | cons y h ih => rw [List.count_cons, List.count_cons, ih]
  | swap a b l =>
    rw [List.count_cons, List.count_cons, List.count_cons, List.count_cons]
    omega
  | trans h1 h2 ih1 ih2 => rw [ih1, ih2]

/-! ### Claim C8 lemmas: one sub-table round trip -/

theorem table_round_trip (E : KindEnv) (sess : Session) (k : String) (tbl : InputBindings)
    (hWF : Session.WF sess) (htbl : TblWF E sess k tbl) :
    ∃ sc : SourceConfig, InputBindings.save E sess k tbl = some sc
      ∧ SavedSource E sess (k, tbl) sc := by
  obtain ⟨hnod, hprops⟩ := htbl
  have hnames : ∀ p ∈ tbl, ∀ a ∈ p.2, ∃ d, Session.get1 sess a = some d := by
    intro p hp a ha
    obtain ⟨-, -, hacts⟩ := hprops p hp
    obtain ⟨d, hd, -⟩ := hacts a ha
    exact ⟨d, hd⟩
  obtain ⟨rows, hrun, hperm⟩ := saveRows_ok E sess tbl [] hnames
  have hsave : InputBindings.save E sess k tbl = some ⟨k, sortRows rows⟩ := by
    rw [InputBindings.save, hrun]
    rfl
  have hsorted : ((sortRows rows).map (·.1)).Pairwise (· ≤ ·) :=
    List.Pairwise.map _ (fun p q h => h) (sortRows_sorted rows)
  have hpermS : (flattenRows (sortRows rows)).Perm ((flattenTbl tbl).map (pairMap E sess)) := by
    rw [show flattenRows ([] : List (String × List String)) = [] from rfl,
      List.append_nil] at hperm
    exact (flattenRows_perm (sortRows_perm rows)).trans hperm
  have hfacts : ∀ q ∈ flattenTbl tbl,
      pairBack E sess k (pairMap E sess q) = q ∧ Resolves E sess k (pairMap E sess q) := by
    intro q hq
    obtain ⟨i0, a0⟩ := q
    rw [flattenTbl, List.mem_flatMap] at hq
    obtain ⟨p, hp, hmemq⟩ := hq
    obtain ⟨x, hx, hpair⟩ := List.mem_map.mp hmemq
    injection hpair with h1 h2
    subst h1
    subst h2
    obtain ⟨hkind, hic, hacts⟩ := hprops p hp
    obtain ⟨d, hd, hty⟩ := hacts x hx
    exact pairBack_pairMap hWF hkind hic hd hty
  have hres : ∀ q ∈ flattenRows (sortRows rows), Resolves E sess k q := by
    intro q hq
    have hq' := hpermS.mem_iff.mp hq
    obtain ⟨q0, hq0, rfl⟩ := List.mem_map.mp hq'
    exact (hfacts q0 hq0).2
  have hnn : ∀ p ∈ sortRows rows, p.2 ≠ [] := by
    intro p hp
    exact saveRows_vals_ne_nil E sess tbl [] rows hrun (by intro q hq; cases hq) p
      ((sortRows_perm rows).mem_iff.mp hp)
  obtain ⟨tbl', hrun2, hperm2, hnd2⟩ := loadRows_ok E sess k (sortRows rows) [] [] hres hnn
  refine ⟨⟨k, sortRows rows⟩, hsave, hsave, rfl, hsorted, tbl', hrun2, ?_⟩
  have hflat : (flattenTbl tbl').Perm (flattenTbl tbl) := by
    rw [show flattenTbl ([] : InputBindings) = [] from rfl, List.append_nil] at hperm2
    refine hperm2.trans ?_
    refine (hpermS.map (pairBack E sess k)).trans ?_
    rw [List.map_map]
    have hcongr : (flattenTbl tbl).map (pairBack E sess k ∘ pairMap E sess)
        = (flattenTbl tbl).map id := by
      apply List.map_congr_left
      intro q hq
      exact (hfacts q hq).1
    rw [hcongr, List.map_id]
  intro i
  rw [List.perm_iff_count]
  intro a
  rw [count_flatten (hnd2 (by simp)) i a, count_flatten hnod i a]
  exact count_eq_of_perm_pair hflat (i, a)

theorem forall₂_mem_right {α β : Type} {R : α → β → Prop} :
    ∀ {l1 : List α} {l2 : List β}, List.Forall₂ R l1 l2 →
      ∀ {b : β}, b ∈ l2 → ∃ a ∈ l1, R a b := by
  intro l1 l2 h
  induction h with
  | nil => intro b hb; cases hb
  | cons h1 h2 ih =>
    intro b hb
    rcases List.mem_cons.mp hb with rfl | hb
    · exact ⟨_, List.mem_cons_self _ _, h1⟩
    · obtain ⟨a, ha, hr⟩ := ih hb
      exact ⟨a, List.mem_cons_of_mem _ ha, hr⟩

theorem mapM_saves (E : KindEnv) (sess : Session) (hWF : Session.WF sess) :
    ∀ ps : List (String × InputBindings),
      (∀ p ∈ ps, TblWF E sess p.1 p.2) →
      ∃ scs, mapOpt (fun p => InputBindings.save E sess p.1 p.2) ps = some scs
        ∧ List.Forall₂ (SavedSource E sess) ps scs := by
  intro ps
  induction ps with
  | nil => exact fun _ => ⟨[], rfl, List.Forall₂.nil⟩
  | cons p rest ih =>
    intro hps
    obtain ⟨sc, hsave, hss⟩ :=
      table_round_trip E sess p.1 p.2 hWF (hps p (List.mem_cons_self _ _))
    obtain ⟨scs, hrun, hf2⟩ := ih (fun q hq => hps q (List.mem_cons_of_mem _ hq))
    refine ⟨sc :: scs, ?_, List.Forall₂.cons hss hf2⟩
    simp only [mapOpt, hsave, hrun]

theorem loadSources_ok (E : KindEnv) (sess : Session) (F : BindingsFactory)
    {ps : List (String × InputBindings)} {scs : List SourceConfig}
    (hf2 : List.Forall₂ (SavedSource E sess) ps scs) :
    ∀ (b0 : Bindings) (errs0 : List LoadError),
      (ps.map (·.1)).Nodup →
      (∀ p ∈ ps, alistGet p.1 F.input_binding_builders = some (p.1, registerSourceFn E p.1)) →
      ∃ bout, loadSources sess F b0 errs0 scs = some (bout, errs0)
        ∧ bout.filters = b0.filters
        ∧ bout.filter_source_actions = b0.filter_source_actions
        ∧ (∀ kk : String, kk ∉ ps.map (·.1) →
            alistGet kk bout.actions = alistGet kk b0.actions)
        ∧ (∀ (kk : String) (tbl : InputBindings), (kk, tbl) ∈ ps →
            ∃ tbl', alistGet kk bout.actions = some tbl'
              ∧ ∀ i : Inp, ((alistGet i tbl').getD []).Perm ((alistGet i tbl).getD [])) := by
  induction hf2 with
  | nil =>
    intro b0 errs0 _ _
    refine ⟨b0, rfl, rfl, rfl, fun kk _ => rfl, fun kk tbl hmem => ?_⟩
    cases hmem
  | @cons p sc ps' scs' h1 h2 ih =>
    intro b0 errs0 hnod hfact
    obtain ⟨pk, ptbl⟩ := p
    obtain ⟨hsave, hty, hsorted, tbl', hreg, hperm⟩ := h1
    have hf := hfact _ (List.mem_cons_self _ _)
    rw [List.map_cons] at hnod
    rcases List.nodup_cons.mp hnod with ⟨hknot, hnod'⟩
    obtain ⟨bout, hrun, hfl, hfsa, hother, hmain⟩ :=
      ih ({ b0 with actions := alistSet pk tbl' b0.actions }) errs0 hnod'
        (fun q hq => hfact q (List.mem_cons_of_mem _ hq))
    refine ⟨bout, ?_, hfl, hfsa, ?_, ?_⟩
    · simp only [loadSources, hty, hf, hreg, hrun, List.append_nil]
    · intro kk hkk
      have hne1 : kk ≠ pk := fun h => hkk (by simp [h])
      have hne2 : kk ∉ ps'.map (·.1) := fun h => hkk (by simp [h])
      rw [hother kk hne2]
      exact alistGet_set_other hne1 _ _
    · intro kk tbl hmem
      rcases List.mem_cons.mp hmem with heq | hmem'
      · injection heq with e1 e2
        subst e1
        subst e2
        have hg : alistGet kk bout.actions
            = alistGet kk (alistSet kk tbl' b0.actions) := hother kk hknot
        rw [hg, alistGet_set_self]
        exact ⟨tbl', rfl, hperm⟩
      · exact hmain kk tbl hmem'

/-! ### Filter-phase lemmas -/

theorem mapOpt_of_forall {α β : Type} {P : β → Prop} (f : α → Option β) :
    ∀ (l : List α), (∀ x ∈ l, ∃ y, f x = some y ∧ P y) →
      ∃ ys, mapOpt f l = some ys ∧ ys.length = l.length ∧ ∀ y ∈ ys, P y := by
  intro l
  induction l with
  | nil => exact fun _ => ⟨[], rfl, rfl, fun y hy => absurd hy (List.not_mem_nil y)⟩
  | cons x xs ih =>
    intro h
    obtain ⟨y, hy, hPy⟩ := h x (List.mem_cons_self _ _)
    obtain ⟨ys, hrun, hlen, hP⟩ := ih (fun z hz => h z (List.mem_cons_of_mem _ hz))
    refine ⟨y :: ys, ?_, by simp [hlen], ?_⟩
    · simp only [mapOpt, hy, hrun]
    · intro z hz
      rcases List.mem_cons.mp hz with rfl | hz
      · exact hPy
      · exact hP z hz

theorem loadFiltersPhase1_ok (F : BindingsFactory) (sess : Session) :
    ∀ (fcs : List FilterConfig) (errs0 : List LoadError)
      (acc : List (FilterBuilder × FilterConfig)),
      (∀ fc ∈ fcs, ∃ fb, alistGet fc.ty F.filter_builders = some fb
        ∧ (fb.create_source_actions sess fc).1 = sess
        ∧ ∃ f', fb.load sess fc = some (.ok f')) →
      ∃ errs1 builders,
        loadFiltersPhase1 F sess errs0 acc fcs = (sess, errs1, acc ++ builders)
          ∧ builders.length = fcs.length
          ∧ ∀ bp ∈ builders, ∃ f', bp.1.load sess bp.2 = some (.ok f') := by
  intro fcs
  induction fcs with
  | nil =>
    intro errs0 acc _
    exact ⟨errs0, [], by simp [loadFiltersPhase1], rfl,
      fun bp hbp => absurd hbp (List.not_mem_nil bp)⟩
  | cons fc rest ih =>
    intro errs0 acc h
    obtain ⟨fb, hfb, hcsa, hload⟩ := h fc (List.mem_cons_self _ _)
    have htail := fun z hz => h z (List.mem_cons_of_mem _ hz)
    cases hc : fb.create_source_actions sess fc with
    | mk s2 e2 =>
      have hs2 : s2 = sess := by rw [hc] at hcsa; exact hcsa
      subst hs2
      cases e2 with
      | none =>
        obtain ⟨errs1, builders, hrun, hlen, hall⟩ := ih errs0 (acc ++ [(fb, fc)]) htail
        refine ⟨errs1, (fb, fc) :: builders, ?_, by simp [hlen], ?_⟩
        · simp only [loadFiltersPhase1, hfb, hc]
          rw [hrun, List.append_assoc, List.singleton_append]
        · intro bp hbp
          rcases List.mem_cons.mp hbp with rfl | hbp
          · exact hload
          · exact hall bp hbp
      | some e =>
        obtain ⟨errs1, builders, hrun, hlen, hall⟩ :=
          ih (errs0 ++ [.Filter e]) (acc ++ [(fb, fc)]) htail
        refine ⟨errs1, (fb, fc) :: builders, ?_, by simp [hlen], ?_⟩
        · simp only [loadFiltersPhase1, hfb, hc]
          rw [hrun, List.append_assoc, List.singleton_append]
        · intro bp hbp
          rcases List.mem_cons.mp hbp with rfl | hbp
          · exact hload
          · exact hall bp hbp

theorem loadFiltersPhase2_ok (sess : Session) :
    ∀ (builders : List (FilterBuilder × FilterConfig)) (b0 : Bindings)
      (errs0 : List LoadError),
      (∀ bp ∈ builders, ∃ f', bp.1.load sess bp.2 = some (.ok f')) →
      ∃ b1 errs1, loadFiltersPhase2 sess b0 errs0 builders = some (b1, errs1)
        ∧ b1.actions = b0.actions
        ∧ b1.filters.length = b0.filters.length + builders.length := by
  intro builders
  induction builders with
  | nil => exact fun b0 errs0 _ => ⟨b0, errs0, rfl, rfl, by simp⟩
  | cons bp rest ih =>
    intro b0 errs0 h
    obtain ⟨fb, fc⟩ := bp
    obtain ⟨f', hload⟩ := h (fb, fc) (List.mem_cons_self _ _)
    obtain ⟨b1, errs1, hrun, hact, hlen⟩ :=
      ih (b0.add_any_filter f') errs0 (fun z hz => h z (List.mem_cons_of_mem _ hz))
    refine ⟨b1, errs1, ?_, ?_, ?_⟩
    · have hload2 : fb.load sess fc = some (Except.ok f') := hload
      simp only [loadFiltersPhase2, hload2, hrun]
    · exact hact
    · rw [hlen]
      have hfchange : (b0.add_any_filter f').filters = b0.filters ++ [f'] := rfl
      rw [hfchange, List.length_append]
      simp only [List.length_cons, List.length_nil]
      omega

/-! ### Claim C8 -/

/-- C8: for every binding over a well-formed session — filters
included — `Bindings::save` produces a `Config` whose binding entries
within each source are sorted by action name, and loading that config
with a factory having the same sources and filters registered
reproduces functionally equivalent bindings: for every input, the
multiset of bound actions is the same (irrespective of the order in
which the original bindings were declared), every filter entry reloads
a filter, and the session is unchanged.  The filter hypotheses state
what a same-session reload does per the code: each filter's `save`
succeeds, its builder is registered under the saved type name,
re-creating its source actions leaves the session unchanged (they
already exist, so `create_action` fails on the first name — the
`DuplicateSource` path, recorded as an error but not aborting the
load, exactly as `DPad` does) and its body reloads without panic. -/
theorem c8_save_sorted_load_round_trip (E : KindEnv) (F : BindingsFactory)
    (sess : Session) (b : Bindings)
    (hWF : Session.WF sess)
    (hkeys : (b.actions.map (·.1)).Nodup)
    (htbl : ∀ p ∈ b.actions, TblWF E sess p.1 p.2)
    (hfact : ∀ p ∈ b.actions,
      alistGet p.1 F.input_binding_builders = some (p.1, registerSourceFn E p.1))
    (hfilt : ∀ f ∈ b.filters, ∃ fc, f.save sess = some fc
      ∧ ∃ fb, alistGet fc.ty F.filter_builders = some fb
        ∧ (fb.create_source_actions sess fc).1 = sess
        ∧ ∃ f', fb.load sess fc = some (.ok f')) :
    ∃ cfg, Bindings.save E b sess = some cfg
      ∧ (∀ sc ∈ cfg.sources, (sc.bindings.map (·.1)).Pairwise (· ≤ ·))
      ∧ ∃ b' errs, F.load sess cfg = some (sess, b', errs)
        ∧ b'.filters.length = b.filters.length
        ∧ ∀ i : Inp, (b'.boundActions i).Perm (b.boundActions i) := by
  obtain ⟨scs, hmapm, hf2⟩ := mapM_saves E sess hWF b.actions htbl
  obtain ⟨fcs, hmapf, hflen, hfcs⟩ :=
    mapOpt_of_forall (fun f => f.save sess) b.filters hfilt
  have hsave : Bindings.save E b sess = some ⟨scs, fcs⟩ := by
    simp only [Bindings.save, hmapm, hmapf]
  refine ⟨⟨scs, fcs⟩, hsave, ?_, ?_⟩
  · intro sc hsc
    obtain ⟨p, hp, hss⟩ := forall₂_mem_right hf2 hsc
    exact hss.2.2.1
  · obtain ⟨errs1, builders, hph1, hblen, hbuilders⟩ :=
      loadFiltersPhase1_ok F sess fcs [] [] hfcs
    rw [List.nil_append] at hph1
    obtain ⟨b1, errs2, hph2, hact1, hflt1⟩ :=
      loadFiltersPhase2_ok sess builders Bindings.new errs1 hbuilders
    obtain ⟨bout, hrun, hfl, hfsa, hother, hmain⟩ :=
      loadSources_ok E sess F hf2 b1 errs2 hkeys hfact
    refine ⟨bout, errs2, ?_, ?_, ?_⟩
    · simp only [BindingsFactory.load, hph1, hph2, hrun]
      rfl
    · rw [hfl, hflt1, hblen, hflen]
      simp [Bindings.new]
    · intro i
      rw [boundActions_alt, boundActions_alt]
      by_cases hk : i.kind ∈ b.actions.map (·.1)
      · obtain ⟨tbl, hmem⟩ := mem_keys_exists hk
        obtain ⟨tbl', hget, hperm⟩ := hmain i.kind tbl hmem
        rw [hget, alistGet_of_mem_nodup hmem hkeys]
        exact hperm i
      · rw [hother i.kind hk, hact1, alistGet_eq_none hk]
        rfl

/-- Witness for C8 at a concrete filter-bearing binding: one `kbd`
source entry plus a `DPad` filter over the same session.  The saved
config is sorted, reloads without panicking — the filter phase hits
the `DuplicateSource` error path without touching the session and
rebuilds the d-pad — and reproduces the input-to-action mapping. -/
theorem c8_witness :
    ∃ cfg, Bindings.save kbdEnv dpadBindings dpadSess = some cfg
      ∧ (∀ sc ∈ cfg.sources, (sc.bindings.map (·.1)).Pairwise (· ≤ ·))
      ∧ ∃ b' errs, (BindingsFactory.new.register_source kbdEnv "kbd").load dpadSess cfg
          = some (dpadSess, b', errs)
        ∧ b'.filters.length = dpadBindings.filters.length
        ∧ ∀ i : Inp, (b'.boundActions i).Perm (dpadBindings.boundActions i) := by
  refine c8_save_sorted_load_round_trip kbdEnv _ dpadSess _ ⟨by decide, by decide⟩
    (by decide) ?_ ?_ ?_
  · intro p hp
    rcases List.mem_cons.mp hp with rfl | hp
    · refine ⟨by decide, ?_⟩
      intro q hq
      rcases List.mem_cons.mp hq with rfl | hq
      · refine ⟨rfl, ⟨by decide, by decide⟩, ?_⟩
        intro a ha
        rcases List.mem_cons.mp ha with rfl | ha
        · exact ⟨⟨1, "move.up", RTy.bool⟩, rfl, rfl⟩
        · cases ha
      · cases hq
    · cases hp
  · intro p hp
    rcases List.mem_cons.mp hp with rfl | hp
    · rfl
    · cases hp
  · intro f hf
    rcases List.mem_cons.mp hf with rfl | hf
    · exact ⟨⟨"dpad", ["move"]⟩, rfl, DPad.builder, rfl, rfl, DPad.filter dpadW, rfl⟩
    · cases hf

end Enact
